import Mathlib

/-!
Verification of the repo-to-prompt file mapper (src/fileMapper.ts).

The development shallowly embeds the four components of the mapper:
  * the token estimator `estimateTokenCount`,
  * the ignore matcher `shouldIgnore` (including a model of JavaScript
    RegExp construction and matching for the glob translation),
  * the recursive directory walker `processDirectory`, and
  * the top level `generateFileMap` with its optional markdown report.

The filesystem is modelled as a finite tree of named entries; the walker
additionally produces a log of the filesystem operations it performs, so
that statements about what is (not) listed or read are expressible.
-/

namespace S2P

/-! ## Token estimator (src/fileMapper.ts, estimateTokenCount)

The JavaScript splits text with the regular expression
`/\s+|([.,!?;:'"(){}\[\]<>\/\\=+-])/g` and keeps the non-empty,
non-whitespace pieces.  Because the punctuation alternative is a capture
group, every punctuation character from the set is itself kept as a token
by `String.prototype.split`; whitespace separators are dropped. -/

/-- The punctuation set of the splitting regex in `estimateTokenCount`.
The final characters of the class are `=`, `+`, `-` (the trailing `-` is
literal). The single-quote character is written via its code point 39. -/
def isPunctChar (c : Char) : Bool :=
  c ∈ ['.', ',', '!', '?', ';', ':', Char.ofNat 39, '"', '(', ')', '{', '}',
       '[', ']', '<', '>', '/', '\\', '=', '+', '-']

/-- Whitespace for the `\s` class of the splitting regex (ASCII part of the
JavaScript `\s`; the inputs of interest are ASCII). -/
def isSpaceChar (c : Char) : Bool :=
  c ∈ [' ', '\t', '\n', '\r', Char.ofNat 11, Char.ofNat 12]

/-- A character that terminates a token run (whitespace or punctuation). -/
def isDelimChar (c : Char) : Bool :=
  isSpaceChar c || isPunctChar c

/-- State machine equivalent of
`text.split(/\s+|([.,!?;:...])/g).filter(t => t && t.trim() !== "").length`:
`inRun` records whether the previous character continued a fragment.  Each
punctuation character contributes one token (the capture group keeps it),
each maximal run of non-delimiter characters contributes one token, and
whitespace contributes nothing. -/
def countTokensAux : Bool → List Char → Nat
  | _, [] => 0
  | inRun, c :: cs =>
    if isPunctChar c then 1 + countTokensAux false cs
    else if isSpaceChar c then countTokensAux false cs
    else (if inRun then 0 else 1) + countTokensAux true cs

/-- Token count of one stream, as computed by the JavaScript split/filter. -/
def countTokens (s : String) : Nat :=
  countTokensAux false s.data

/-- `Math.ceil(n * 1.2)` for a natural number `n` of tokens: the ceiling of
`6n/5` (for realistic counts the double-precision product rounds to the
same ceiling). -/
def ceilTimes12 (n : Nat) : Nat :=
  (6 * n + 4) / 5

/-- `text.split("\n")`: split at every newline, keeping empty pieces
(the empty text yields one empty piece). -/
def splitOnNewlines : List Char → List (List Char)
  | [] => [[]]
  | c :: cs =>
    let rest := splitOnNewlines cs
    if c = '\n' then [] :: rest
    else
      match rest with
      | [] => [[c]]
      | t :: ts => (c :: t) :: ts

/-- `line.trim()` (the ASCII part of the JavaScript trim set). -/
def trimChars (l : List Char) : List Char :=
  ((l.dropWhile isSpaceChar).reverse.dropWhile isSpaceChar).reverse

/-- The fence test of the line scanner: `line.trim().startsWith("```")`
(the backtick is code point 96). -/
def isFenceLine (l : List Char) : Bool :=
  [Char.ofNat 96, Char.ofNat 96, Char.ofNat 96].isPrefixOf (trimChars l)

/-- The line scanner of `estimateTokenCount`: walks the lines accumulating
`normalContent` and `codeBlockContent`, toggling `inCodeBlock` on every
fence line; every non-fence line is appended, followed by a newline, to
the stream selected by the current state. -/
def fenceScan : List (List Char) → Bool → List Char → List Char → List Char × List Char
  | [], _, normal, code => (normal, code)
  | l :: ls, inCode, normal, code =>
    if isFenceLine l then fenceScan ls (!inCode) normal code
    else if inCode then fenceScan ls inCode normal (code ++ l ++ ['\n'])
    else fenceScan ls inCode (normal ++ l ++ ['\n']) code

/-- `estimateTokenCount` from src/fileMapper.ts.  The initial `tokens`
value computed there is dead code (its value is never used); the returned
estimate is `normalTokenEstimate + Math.ceil(codeTokenEstimate * 1.2)`. -/
def estimateTokenCount (text : String) : Nat :=
  if text = "" then 0
  else
    let streams := fenceScan (splitOnNewlines text.data) false [] []
    countTokensAux false streams.1 + ceilTimes12 (countTokensAux false streams.2)

/-! ## A model of JavaScript regular expressions

`shouldIgnore` translates a glob pattern into a regex source string and
builds `new RegExp("^" + source + "$")`.  We model the fragment of the
JavaScript regex grammar that such sources can use: literal characters,
backslash escapes, `.`, character classes `[...]`, the postfix operators
`*`, `+`, `?` (with their lazy variants), and top-level alternation `|`.
Constructing a regex from a malformed source (for example an unterminated
character class) throws a `SyntaxError` in JavaScript; the model's parser
returns `none` there.  Group syntax `(`, brace quantifiers and the anchors
`^`/`$` inside the source are outside the modelled fragment and are also
mapped to `none`; no statement below depends on sources using them. -/

/-- One item of a character class: a single character or a range. -/
inductive ClassItem where
  | single (c : Char)
  | range (lo hi : Char)
deriving DecidableEq, Repr

/-- A single-character matcher: a literal character, or a (possibly
negated) class built from items. -/
inductive CharTest where
  | one (c : Char)
  | set (negated : Bool) (items : List ClassItem)
deriving DecidableEq, Repr

/-- Regular expressions: empty language, empty string, one character
matched by a `CharTest`, concatenation, alternation and Kleene star. -/
inductive RE where
  | zero
  | eps
  | cls (t : CharTest)
  | comp (r1 r2 : RE)
  | alt (r1 r2 : RE)
  | star (r : RE)
deriving DecidableEq, Repr

def ClassItem.test : ClassItem → Char → Bool
  | .single c, d => c = d
  | .range lo hi, d => lo ≤ d && d ≤ hi

def CharTest.test : CharTest → Char → Bool
  | .one c, d => c = d
  | .set neg items, d =>
    let m := items.any fun it => it.test d
    if neg then !m else m

/-- The JavaScript line terminators, which `.` does not match. -/
def isLineTerminator (c : Char) : Bool :=
  c ∈ ['\n', '\r', Char.ofNat 0x2028, Char.ofNat 0x2029]

/-- The `CharTest` of the metacharacter `.` (any character except a line
terminator; the regexes built by `shouldIgnore` carry no `s` flag). -/
def CharTest.dot : CharTest :=
  .set true [.single '\n', .single '\r',
             .single (Char.ofNat 0x2028), .single (Char.ofNat 0x2029)]

/-- The regex denoted by a backslash escape `\c`. -/
def escAtom (c : Char) : RE :=
  if c = 'd' then .cls (.set false [.range '0' '9'])
  else if c = 'D' then .cls (.set true [.range '0' '9'])
  else if c = 'w' then
    .cls (.set false [.range 'a' 'z', .range 'A' 'Z', .range '0' '9', .single '_'])
  else if c = 'W' then
    .cls (.set true [.range 'a' 'z', .range 'A' 'Z', .range '0' '9', .single '_'])
  else if c = 's' then .cls (.set false [.single ' ', .single '\t', .single '\n',
    .single '\r', .single (Char.ofNat 11), .single (Char.ofNat 12)])
  else if c = 'S' then .cls (.set true [.single ' ', .single '\t', .single '\n',
    .single '\r', .single (Char.ofNat 11), .single (Char.ofNat 12)])
  else if c = 'n' then .cls (.one '\n')
  else if c = 't' then .cls (.one '\t')
  else if c = 'r' then .cls (.one '\r')
  else if c = 'f' then .cls (.one (Char.ofNat 12))
  else if c = 'v' then .cls (.one (Char.ofNat 11))
  else .cls (.one c)

/-- Parse the items of a character class up to the closing `]`.  Reaching
the end of the input without a `]` is the `SyntaxError` of an unterminated
character class; a reversed range is also an error. -/
def parseClassItems : List Char → Option (List ClassItem × List Char)
  | [] => none
  | ']' :: cs => some ([], cs)
  | '\\' :: [] => none
  | '\\' :: d :: cs2 => do
    let (items, rest) ← parseClassItems cs2
    pure (ClassItem.single d :: items, rest)
  | c :: '-' :: d :: cs2 =>
    if d = ']' then
      -- a `-` just before the closing bracket is a literal item
      some ([ClassItem.single c, ClassItem.single '-'], cs2)
    else if c ≤ d then do
      let (items, rest) ← parseClassItems cs2
      pure (ClassItem.range c d :: items, rest)
    else none
  | c :: cs => do
    let (items, rest) ← parseClassItems cs
    pure (ClassItem.single c :: items, rest)

/-- Parse one atom.  A quantifier with nothing to repeat, a dangling
escape, a stray `)` and an unterminated class are `SyntaxError`s in
JavaScript; `(`, `{`, `}`, `^`, `$` are outside the modelled fragment. -/
def parseAtom : List Char → Option (RE × List Char)
  | [] => none
  | c :: cs =>
    if c = '\\' then
      match cs with
      | [] => none
      | d :: cs2 => some (escAtom d, cs2)
    else if c = '.' then some (.cls .dot, cs)
    else if c = '[' then
      match cs with
      | '^' :: cs2 => do
        let (items, rest) ← parseClassItems cs2
        pure (RE.cls (.set true items), rest)
      | _ => do
        let (items, rest) ← parseClassItems cs
        pure (RE.cls (.set false items), rest)
    else if c = '*' || c = '+' || c = '?' || c = '(' || c = ')' ||
            c = '{' || c = '}' || c = '^' || c = '$' then none
    else some (.cls (.one c), cs)

/-- Apply a postfix quantifier (`*`, `+`, `?`, possibly with a lazy `?`;
laziness does not change the matched language). -/
def skipLazy : List Char → List Char
  | '?' :: cs => cs
  | cs => cs

def applyPostfix (r : RE) (rest : List Char) : RE × List Char :=
  match rest with
  | [] => (r, rest)
  | c :: cs =>
    if c = '*' then (.star r, skipLazy cs)
    else if c = '+' then (.comp r (.star r), skipLazy cs)
    else if c = '?' then (.alt .eps r, skipLazy cs)
    else (r, rest)

/-- Parse a concatenation (everything up to a top-level `|` or the end).
The fuel bounds the recursion; `parseRE` supplies enough for the whole
input. -/
def parseSeq : Nat → List Char → Option (RE × List Char)
  | 0, _ => none
  | _ + 1, [] => some (.eps, [])
  | fuel + 1, c :: cs =>
    if c = '|' then some (.eps, c :: cs)
    else do
      let (a, rest) ← parseAtom (c :: cs)
      let (a2, rest2) := applyPostfix a rest
      let (b, rest3) ← parseSeq fuel rest2
      pure (RE.comp a2 b, rest3)

/-- Parse an alternation of concatenations. -/
def parseAlt : Nat → List Char → Option (RE × List Char)
  | 0, _ => none
  | fuel + 1, s => do
    let (a, rest) ← parseSeq (fuel + 1) s
    match rest with
    | '|' :: rest2 => do
      let (b, rest3) ← parseAlt fuel rest2
      pure (RE.alt a b, rest3)
    | _ => pure (a, rest)

/-- Parse a whole regex source string; `none` models a `SyntaxError`
thrown by `new RegExp`. -/
def parseRE (s : List Char) : Option RE :=
  match parseAlt (s.length + 1) s with
  | some (r, []) => some r
  | _ => none

/-- `matchEpsilon r` is true iff `r` accepts the empty string. -/
def RE.matchEpsilon : RE → Bool
  | .zero => false
  | .eps => true
  | .cls _ => false
  | .comp r1 r2 => r1.matchEpsilon && r2.matchEpsilon
  | .alt r1 r2 => r1.matchEpsilon || r2.matchEpsilon
  | .star _ => true

/-- Brzozowski derivative of `r` by the character `a`. -/
def RE.deriv : RE → Char → RE
  | .zero, _ => .zero
  | .eps, _ => .zero
  | .cls t, a => if t.test a then .eps else .zero
  | .comp r1 r2, a =>
    if r1.matchEpsilon then .alt (.comp (r1.deriv a) r2) (r2.deriv a)
    else .comp (r1.deriv a) r2
  | .alt r1 r2, a => .alt (r1.deriv a) (r2.deriv a)
  | .star r, a => .comp (r.deriv a) (.star r)

/-- Derivative-based matching: `r.rmatch s` iff `r` accepts `s`. -/
def RE.rmatch : RE → List Char → Bool
  | r, [] => r.matchEpsilon
  | r, a :: as => (r.deriv a).rmatch as

/-! ## Ignore matcher (src/fileMapper.ts, shouldIgnore) -/

/-- `pattern.replace(/\./g, "\\.").replace(/\*/g, ".*")` character by
character: the two global single-character replacements compose to this
single pass, because the first introduces no `*` and the second replace
only rewrites the `*` characters of the first result. -/
def translateGlobChars : List Char → List Char
  | [] => []
  | c :: cs =>
    if c = '.' then '\\' :: '.' :: translateGlobChars cs
    else if c = '*' then '.' :: '*' :: translateGlobChars cs
    else c :: translateGlobChars cs

def translateGlob (p : String) : String :=
  ⟨translateGlobChars p.data⟩

/-- `new RegExp("^" + source + "$").test(name)`: `.error` models the
`SyntaxError` thrown for a malformed source (carrying the source) and the
surrounding anchors are modelled by whole-string matching. -/
def regexTestAnchored (source : String) (name : String) : Except String Bool :=
  match parseRE source.data with
  | none => .error source
  | some r => .ok (r.rmatch name.data)

/-- `path.basename`: the part after the last `/` (POSIX; the paths the
walker builds never end in a separator). -/
def pathBasename (p : String) : String :=
  ⟨(p.data.reverse.takeWhile fun c => c ≠ '/').reverse⟩

/-- The `ignorePatterns.some(...)` loop of `shouldIgnore`: an exact
(case-sensitive) comparison first, then, for patterns containing `*`, the
translated regular expression.  `Array.prototype.some` stops at the first
match, and an exception thrown while testing a later pattern
propagates. -/
def matchesSome : List String → String → Except String Bool
  | [], _ => .ok false
  | p :: ps, itemName =>
    if p = itemName then .ok true
    else if p.data.contains '*' then
      match regexTestAnchored (translateGlob p) itemName with
      | .error e => .error e
      | .ok true => .ok true
      | .ok false => matchesSome ps itemName
    else matchesSome ps itemName

/-- `shouldIgnore` from src/fileMapper.ts. -/
def shouldIgnore (itemPath : String) (ignorePatterns : List String) :
    Except String Bool :=
  matchesSome ignorePatterns (pathBasename itemPath)

/-- The total ignore test: what `shouldIgnore` answers whenever no pattern
makes `new RegExp` throw. -/
def ignoresB (pats : List String) (name : String) : Bool :=
  pats.any fun p =>
    p == name ||
      (p.data.contains '*' &&
        (match parseRE (translateGlob p).data with
         | some r => r.rmatch name.data
         | none => false))

/-- Every pattern that contains a `*` translates to a well-formed regular
expression source. -/
def patsOK (pats : List String) : Bool :=
  pats.all fun p => !p.data.contains '*' || (parseRE (translateGlob p).data).isSome

/-- Glob matching with every non-`*` character taken literally: the name
decomposes into the literal segments of the pattern, with an arbitrary
(possibly empty) gap at each `*`. -/
def globMatchB : List Char → List Char → Bool
  | [], [] => true
  | [], _ :: _ => false
  | c :: ps, s =>
    if c = '*' then
      globMatchB ps s ||
        (match s with
         | [] => false
         | _ :: s2 => globMatchB (c :: ps) s2)
    else
      match s with
      | [] => false
      | d :: s2 => c = d && globMatchB ps s2
termination_by p s => (p.length, s.length)

/-- The ignore matcher as claim C3 words it: a pattern without `*` matches
iff it equals the basename; a pattern with `*` matches iff the whole
basename matches the pattern with EVERY regex metacharacter escaped as a
literal and each `*` matching any character sequence.  Written to compare
with `shouldIgnore`. -/
def claimShouldIgnore (itemPath : String) (pats : List String) : Bool :=
  pats.any fun p =>
    if p.data.contains '*' then globMatchB p.data (pathBasename itemPath).data
    else p == pathBasename itemPath

/-- Patterns whose characters, besides the wildcard `*` and the escaped
`.`, are not regex metacharacters, so that the glob translation stays in
the literal fragment. -/
def safePatternChar (c : Char) : Bool :=
  c ≠ '\\' && c ≠ '^' && c ≠ '$' && c ≠ '|' && c ≠ '?' && c ≠ '+' &&
    c ≠ '(' && c ≠ ')' && c ≠ '[' && c ≠ ']' && c ≠ '{' && c ≠ '}'

def safePattern (p : String) : Bool :=
  p.data.all safePatternChar

/-- Names without JavaScript line terminators (the characters the
translated `.` of a wildcard does not match). -/
def safeName (s : String) : Bool :=
  s.data.all fun c => !isLineTerminator c

/-! ## Specification-side formulations of the token estimator -/

/-- Token counting as claim C5 words it: splitting on whitespace and on
each punctuation character and discarding empty fragments, so punctuation
characters are separators and are not themselves counted.  Written to
compare with `countTokensAux`. -/
def claimCountTokensAux : Bool → List Char → Nat
  | _, [] => 0
  | inRun, c :: cs =>
    if isDelimChar c then claimCountTokensAux false cs
    else (if inRun then 0 else 1) + claimCountTokensAux true cs

/-- The token estimate as claim C5 words it: the same fence scanning and
final formula, with the claim tokenizer. -/
def claimEstimateTokenCount (text : String) : Nat :=
  if text = "" then 0
  else
    let streams := fenceScan (splitOnNewlines text.data) false [] []
    claimCountTokensAux false streams.1
      + ceilTimes12 (claimCountTokensAux false streams.2)

/-- Prepend a character to the first token (starting a new token when
there is none). -/
def consRun (c : Char) : List (List Char) → List (List Char)
  | [] => [[c]]
  | t :: ts => (c :: t) :: ts

/-- The token list of one stream: maximal runs of non-delimiter characters
and, interleaved with them, each punctuation character as a token of its
own. -/
def tokensOf : List Char → List (List Char)
  | [] => []
  | c :: cs =>
    if isPunctChar c then [c] :: tokensOf cs
    else if isSpaceChar c then tokensOf cs
    else
      match cs with
      | [] => [[c]]
      | d :: _ =>
        if isDelimChar d then [c] :: tokensOf cs
        else consRun c (tokensOf cs)

/-- Whether line number `i` lies inside a fenced block when the scan
starts in state `b`: the parity of the number of fence lines before
it. -/
def fenceParity (b : Bool) (ls : List (List Char)) (i : Nat) : Bool :=
  xor b (((ls.take i).countP fun l => isFenceLine l) % 2 == 1)

/-- The stream (prose for `isCode = false`, code for `isCode = true`)
assembled from the lines selected by the fence parity, each followed by a
newline; fence lines belong to neither stream. -/
def pickStream (isCode b : Bool) (ls : List (List Char)) : List Char :=
  (ls.enum.filterMap fun il =>
    if isFenceLine il.2 then none
    else if fenceParity b ls il.1 = isCode then some (il.2 ++ ['\n']) else none).flatten

/-! ## Filesystem model and the directory walker -/

/-- A filesystem entry: a file with its text content, or a directory with
its named children in the order `fs.readdirSync` returns them. -/
inductive FSEntry where
  | file (content : String)
  | dir (entries : List (String × FSEntry))

/-- Directory entry names are nonempty and contain no separator. -/
def validName (n : String) : Bool :=
  n ≠ "" && !n.data.contains '/'

mutual
/-- All names in the tree are valid entry names. -/
def FSEntry.valid : FSEntry → Bool
  | .file _ => true
  | .dir entries => validEntries entries

def validEntries : List (String × FSEntry) → Bool
  | [] => true
  | (n, e) :: rest => validName n && e.valid && validEntries rest
end

structure FileMapOptions where
  outputPath : Option String
  ignorePatterns : List String
deriving DecidableEq, Repr

structure TokenCount where
  total : Nat
  fileMapTokens : Nat
  fileContentsTokens : Nat
deriving DecidableEq, Repr

/-- The result record of `generateFileMap` (`fileTokens` keeps the
insertion order of the JavaScript record). -/
structure FileMapResult where
  fileMap : String
  fileContents : String
  fileTokens : List (String × Nat)
  tokenCount : TokenCount
deriving DecidableEq, Repr

/-- A logged filesystem operation. -/
inductive FSOp where
  | readdir (path : String)
  | stat (path : String)
  | readFile (path : String)
  | writeFile (path : String) (content : String)
deriving DecidableEq, Repr

/-- The errors `generateFileMap` can raise: the explicit existence-check
error, an I/O error from a filesystem primitive, and the `SyntaxError`
thrown by `new RegExp` for a malformed translated pattern. -/
inductive FMError where
  | dirNotFound (path : String)
  | ioError (msg : String)
  | regexError (source : String)
deriving DecidableEq, Repr

def FMError.message : FMError → String
  | .dirNotFound p => "Directory not found: " ++ p
  | .ioError m => m
  | .regexError src => "Invalid regular expression: " ++ src

/-- `path.join(a, b)` for a clean directory path and an entry name. -/
def pathJoin (a b : String) : String :=
  a ++ "/" ++ b

/-- `path.relative(root, p)` for the paths the walker builds (which are
always `root ++ "/" ++ rel`): strips the root prefix and the separator. -/
def pathRelative (root p : String) : String :=
  if (root ++ "/").data.isPrefixOf p.data then ⟨p.data.drop (root.data.length + 1)⟩
  else p

/-- The mutable accumulators of `generateFileMap` (`fileMap`,
`fileContents`, `fileTokens`). -/
structure WalkAcc where
  fileMap : String
  fileContents : String
  fileTokens : List (String × Nat)
deriving DecidableEq, Repr

mutual
/-- The per-entry step of `processDirectory` after the ignore test and
the diagram line: a file is read (its block and token entry appended), a
directory is listed and recursed into with the child indentation. -/
def processEntry (pats : List String) (dirPath : String)
    (fullPath : String) (childIndent : String) (acc1 : WalkAcc) :
    FSEntry → List FSOp × Except FMError WalkAcc
  | .file content =>
    let relativePath := pathRelative dirPath fullPath
    ([FSOp.readFile fullPath],
     .ok ⟨acc1.fileMap,
          acc1.fileContents ++ "File: " ++ relativePath ++ "\n```\n"
            ++ content ++ "\n```\n\n",
          acc1.fileTokens ++ [(relativePath, estimateTokenCount content)]⟩)
  | .dir sub =>
    match processItems pats dirPath fullPath childIndent acc1 sub with
    | (ops, r) => (FSOp.readdir fullPath :: ops, r)

/-- The `items.forEach` body of `processDirectory`, processing the
residual sibling list: `isLast` holds exactly for the final element of
the directory listing (`index === items.length - 1`), whether or not
earlier or later siblings are ignored.  Returns the filesystem operations
performed and either the updated accumulator or the first exception
(which aborts the whole walk, as a thrown exception does in
`Array.prototype.forEach`). -/
def processItems (pats : List String) (dirPath : String)
    (currentPath : String) (indent : String) (acc : WalkAcc) :
    List (String × FSEntry) → List FSOp × Except FMError WalkAcc
  | [] => ([], .ok acc)
  | (item, entry) :: rest =>
    let fullPath := pathJoin currentPath item
    match shouldIgnore fullPath pats with
    | .error src => ([], .error (.regexError src))
    | .ok true => processItems pats dirPath currentPath indent acc rest
    | .ok false =>
      let isLast := rest.isEmpty
      let connector := if isLast then "└── " else "├── "
      let acc1 : WalkAcc :=
        ⟨acc.fileMap ++ indent ++ connector ++ item ++ "\n",
         acc.fileContents, acc.fileTokens⟩
      let childIndent := indent ++ (if isLast then "    " else "│   ")
      match processEntry pats dirPath fullPath childIndent acc1 entry with
      | (ops2, .error e) => (FSOp.stat fullPath :: ops2, .error e)
      | (ops2, .ok acc2) =>
        match processItems pats dirPath currentPath indent acc2 rest with
        | (ops3, r) => (FSOp.stat fullPath :: (ops2 ++ ops3), r)
end

/-- `processDirectory`: list the directory, then process its items. -/
def processDirectory (pats : List String) (dirPath : String)
    (currentPath : String) (indent : String) (acc : WalkAcc)
    (entries : List (String × FSEntry)) : List FSOp × Except FMError WalkAcc :=
  match processItems pats dirPath currentPath indent acc entries with
  | (ops, r) => (FSOp.readdir currentPath :: ops, r)

/-- `generateFileMap` from src/fileMapper.ts.  `root` is what the
filesystem holds at `dirPath` (`none` when nothing exists there, so that
`fs.existsSync` is false).  The returned list logs the filesystem
operations.  A file at `dirPath` passes the existence check but
`fs.readdirSync` then fails with a generic `ENOTDIR` I/O error (modelled
from Node's behaviour); writing the report overwrites the target file
with exactly the logged content (`fs.writeFileSync`). -/
def generateFileMap (root : Option FSEntry) (dirPath : String)
    (options : FileMapOptions) : List FSOp × Except FMError FileMapResult :=
  match root with
  | none => ([], .error (.dirNotFound dirPath))
  | some (.file _) =>
    ([FSOp.readdir dirPath],
     .error (.ioError ("ENOTDIR: not a directory, scandir " ++ dirPath)))
  | some (.dir entries) =>
    let dirName := pathBasename dirPath
    let acc0 : WalkAcc := ⟨dirName ++ "\n", "", []⟩
    match processDirectory options.ignorePatterns dirPath dirPath "" acc0 entries with
    | (ops, .error e) => (ops, .error e)
    | (ops, .ok acc) =>
      let fileMapTokens := estimateTokenCount acc.fileMap
      let fileContentsTokens := estimateTokenCount acc.fileContents
      let totalTokens := fileMapTokens + fileContentsTokens
      let writeOps : List FSOp :=
        match options.outputPath with
        | none => []
        | some outputPath =>
          [FSOp.writeFile outputPath
            ("# Directory Structure for " ++ dirName ++ "\n\n```\n" ++ acc.fileMap
              ++ "```\n\n# File Contents\n\n" ++ acc.fileContents)]
      (ops ++ writeOps,
       .ok ⟨acc.fileMap, acc.fileContents, acc.fileTokens,
            ⟨totalTokens, fileMapTokens, fileContentsTokens⟩⟩)

/-! ## Specification-side renderings of the walk

These functions recurse only into entries that survive the ignore test;
an ignored entry is skipped without its subtree being examined. -/

/-- The indentation contributed by the ancestors: four spaces below an
ancestor that was the last element of its listing, a `│` column below any
other ancestor. -/
def indentOf (ancestors : List Bool) : String :=
  String.join (ancestors.map fun wasLast => if wasLast then "    " else "│   ")

def connectorOf (isLast : Bool) : String :=
  if isLast then "└── " else "├── "

/-- The diagram lines of a listing: one line per surviving entry, the
connector chosen by whether the entry is the final element of its
directory listing (ignored siblings included), the indentation determined
by the `ancestors` flags. -/
def specLines (pats : List String) (ancestors : List Bool) :
    List (String × FSEntry) → String
  | [] => ""
  | (item, entry) :: rest =>
    let isLast := rest.isEmpty
    let tail := specLines pats ancestors rest
    if ignoresB pats item then tail
    else
      indentOf ancestors ++ connectorOf isLast ++ item ++ "\n" ++
        (match entry with
         | .file _ => ""
         | .dir sub => specLines pats (ancestors ++ [isLast]) sub) ++ tail

/-- The diagram lines as claim C1 words them: the `isLast` flag marks the
last SURVIVING (non-ignored) sibling instead of the last listed one.
Written to compare with the `specLines` characterisation of the code. -/
def claimSpecLines (pats : List String) (ancestors : List Bool) :
    List (String × FSEntry) → String
  | [] => ""
  | (item, entry) :: rest =>
    let tail := claimSpecLines pats ancestors rest
    if ignoresB pats item then tail
    else
      let isLast := (rest.filter fun e => !ignoresB pats e.1).isEmpty
      indentOf ancestors ++ connectorOf isLast ++ item ++ "\n" ++
        (match entry with
         | .file _ => ""
         | .dir sub => claimSpecLines pats (ancestors ++ [isLast]) sub) ++ tail

/-- The concatenated contents blocks of the surviving files, in traversal
order; `relPfx` is the root-relative prefix (`""` at the root, otherwise
ending in `/`). -/
def specContents (pats : List String) (relPfx : String) :
    List (String × FSEntry) → String
  | [] => ""
  | (item, entry) :: rest =>
    let tail := specContents pats relPfx rest
    if ignoresB pats item then tail
    else
      match entry with
      | .file content =>
        "File: " ++ (relPfx ++ item) ++ "\n```\n" ++ content ++ "\n```\n\n" ++ tail
      | .dir sub => specContents pats (relPfx ++ item ++ "/") sub ++ tail

/-- The per-file token map: one key per surviving file, keyed by its
root-relative path, valued by the token estimate of its content. -/
def specFileTokens (pats : List String) (relPfx : String) :
    List (String × FSEntry) → List (String × Nat)
  | [] => []
  | (item, entry) :: rest =>
    let tail := specFileTokens pats relPfx rest
    if ignoresB pats item then tail
    else
      match entry with
      | .file content => (relPfx ++ item, estimateTokenCount content) :: tail
      | .dir sub => specFileTokens pats (relPfx ++ item ++ "/") sub ++ tail

/-- The filesystem operations of the walk below one listing: surviving
entries are statted, surviving directories listed and recursed into,
surviving files read; ignored entries contribute nothing at all. -/
def specOps (pats : List String) (currentPath : String) :
    List (String × FSEntry) → List FSOp
  | [] => []
  | (item, entry) :: rest =>
    let tail := specOps pats currentPath rest
    let fullPath := pathJoin currentPath item
    if ignoresB pats item then tail
    else
      match entry with
      | .file _ => FSOp.stat fullPath :: FSOp.readFile fullPath :: tail
      | .dir sub =>
        FSOp.stat fullPath :: FSOp.readdir fullPath
          :: (specOps pats fullPath sub ++ tail)

mutual
/-- Size of a tree, used to drive inductions over the walk. -/
def entrySize : FSEntry → Nat
  | .file _ => 1
  | .dir es => 1 + entriesSize es

def entriesSize : List (String × FSEntry) → Nat
  | [] => 0
  | (_, e) :: rest => entrySize e + entriesSize rest + 1
end

mutual
/-- Two trees that agree everywhere except possibly below entries whose
own name matches the ignore patterns: those subtrees may differ
arbitrarily. -/
inductive IgnEquiv (pats : List String) : FSEntry → FSEntry → Prop
  | file (c : String) : IgnEquiv pats (.file c) (.file c)
  | dir {as bs : List (String × FSEntry)} :
      IgnEquivList pats as bs → IgnEquiv pats (.dir as) (.dir bs)

inductive IgnEquivList (pats : List String) :
    List (String × FSEntry) → List (String × FSEntry) → Prop
  | nil : IgnEquivList pats [] []
  | consIgnored {n : String} {a b : FSEntry} {r1 r2 : List (String × FSEntry)} :
      ignoresB pats n = true → IgnEquivList pats r1 r2 →
      IgnEquivList pats ((n, a) :: r1) ((n, b) :: r2)
  | consSame {n : String} {a b : FSEntry} {r1 r2 : List (String × FSEntry)} :
      IgnEquiv pats a b → IgnEquivList pats r1 r2 →
      IgnEquivList pats ((n, a) :: r1) ((n, b) :: r2)
end

/-- The regex a safe glob pattern translates to, atom by atom: a `*`
becomes `.*` (any characters except line terminators), any other
character a literal atom. -/
def astOfPattern : List Char → RE
  | [] => .eps
  | c :: ps =>
    if c = '*' then .comp (.star (.cls .dot)) (astOfPattern ps)
    else .comp (.cls (.one c)) (astOfPattern ps)

/-- Whether a logged operation writes a file (`fs.writeFileSync`). -/
def isWriteOp : FSOp → Bool
  | .writeFile _ _ => true
  | _ => false

/-! # Theorems -/

/-! ## Token estimator -/

theorem tokensOf_punct (c : Char) (cs : List Char) (hp : isPunctChar c = true) :
    tokensOf (c :: cs) = [c] :: tokensOf cs := by
  simp [tokensOf, hp]

theorem tokensOf_space (c : Char) (cs : List Char) (hp : isPunctChar c = false)
    (hs : isSpaceChar c = true) : tokensOf (c :: cs) = tokensOf cs := by
  simp [tokensOf, hp, hs]

theorem tokensOf_one (c : Char) (hp : isPunctChar c = false)
    (hs : isSpaceChar c = false) : tokensOf [c] = [[c]] := by
  simp [tokensOf, hp, hs]

theorem tokensOf_before_delim (c e : Char) (cs2 : List Char)
    (hp : isPunctChar c = false) (hs : isSpaceChar c = false)
    (he : isDelimChar e = true) :
    tokensOf (c :: e :: cs2) = [c] :: tokensOf (e :: cs2) := by
  simp [tokensOf, hp, hs, he]

theorem tokensOf_run (c e : Char) (cs2 : List Char)
    (hp : isPunctChar c = false) (hs : isSpaceChar c = false)
    (he : isDelimChar e = false) :
    tokensOf (c :: e :: cs2) = consRun c (tokensOf (e :: cs2)) := by
  simp [tokensOf, hp, hs, he]

theorem tokensOf_run_head (d : Char) (cs : List Char) (h : isDelimChar d = false) :
    ∃ t ts, tokensOf (d :: cs) = (d :: t) :: ts := by
  have h2 : isSpaceChar d = false ∧ isPunctChar d = false := by
    simpa [isDelimChar, Bool.or_eq_false_iff] using h
  rcases cs with _ | ⟨e, cs2⟩
  · exact ⟨[], [], tokensOf_one d h2.2 h2.1⟩
  · by_cases he : isDelimChar e = true
    · exact ⟨[], tokensOf (e :: cs2), tokensOf_before_delim d e cs2 h2.2 h2.1 he⟩
    · rw [tokensOf_run d e cs2 h2.2 h2.1 (by simpa using he)]
      rcases htk : tokensOf (e :: cs2) with _ | ⟨t, ts⟩
      · exact ⟨[], [], by simp [consRun]⟩
      · exact ⟨t, ts, by simp [consRun]⟩

theorem cta_punct (b : Bool) (c : Char) (cs : List Char) (hp : isPunctChar c = true) :
    countTokensAux b (c :: cs) = 1 + countTokensAux false cs := by
  simp [countTokensAux, hp]

theorem cta_space (b : Bool) (c : Char) (cs : List Char) (hp : isPunctChar c = false)
    (hs : isSpaceChar c = true) :
    countTokensAux b (c :: cs) = countTokensAux false cs := by
  simp [countTokensAux, hp, hs]

theorem cta_run (b : Bool) (c : Char) (cs : List Char) (hp : isPunctChar c = false)
    (hs : isSpaceChar c = false) :
    countTokensAux b (c :: cs) = (if b then 0 else 1) + countTokensAux true cs := by
  simp [countTokensAux, hp, hs]

theorem count_tokensOf (s : List Char) :
    countTokensAux false s = (tokensOf s).length ∧
    countTokensAux true s + (if isDelimChar (s.headD ' ') then 0 else 1)
      = (tokensOf s).length := by
  induction s with
  | nil => exact ⟨by decide, by decide⟩
  | cons c cs ih =>
    by_cases hp : isPunctChar c = true
    · have hd : isDelimChar c = true := by simp [isDelimChar, hp]
      refine ⟨?_, ?_⟩
      · rw [cta_punct false c cs hp, tokensOf_punct c cs hp, List.length_cons, ih.1]
        omega
      · rw [cta_punct true c cs hp, tokensOf_punct c cs hp, List.length_cons,
          List.headD_cons, hd, ih.1]
        simp [Nat.add_comm]
    · have hp2 : isPunctChar c = false := by simpa using hp
      by_cases hs : isSpaceChar c = true
      · have hd : isDelimChar c = true := by simp [isDelimChar, hs]
        refine ⟨?_, ?_⟩
        · rw [cta_space false c cs hp2 hs, tokensOf_space c cs hp2 hs, ih.1]
        · rw [cta_space true c cs hp2 hs, tokensOf_space c cs hp2 hs,
            List.headD_cons, hd]
          simp [ih.1]
      · have hs2 : isSpaceChar c = false := by simpa using hs
        have hd : isDelimChar c = false := by simp [isDelimChar, hp2, hs2]
        rcases cs with _ | ⟨e, cs2⟩
        · refine ⟨?_, ?_⟩
          · rw [cta_run false c [] hp2 hs2, tokensOf_one c hp2 hs2]
            simp [countTokensAux]
          · rw [cta_run true c [] hp2 hs2, tokensOf_one c hp2 hs2,
              List.headD_cons, hd]
            simp [countTokensAux]
        · by_cases he : isDelimChar e = true
          · have ih2 : countTokensAux true (e :: cs2) = (tokensOf (e :: cs2)).length := by
              have h := ih.2
              rw [List.headD_cons, he] at h
              simpa using h
            refine ⟨?_, ?_⟩
            · rw [cta_run false c (e :: cs2) hp2 hs2,
                tokensOf_before_delim c e cs2 hp2 hs2 he, List.length_cons, ih2]
              simp [Nat.add_comm]
            · rw [cta_run true c (e :: cs2) hp2 hs2,
                tokensOf_before_delim c e cs2 hp2 hs2 he, List.length_cons, ih2,
                List.headD_cons, hd]
              simp [Nat.add_comm]
          · have he2 : isDelimChar e = false := by simpa using he
            obtain ⟨t, ts, htk⟩ := tokensOf_run_head e cs2 he2
            have ih2 : countTokensAux true (e :: cs2) = ts.length := by
              have h := ih.2
              rw [List.headD_cons, he2] at h
              rw [htk] at h
              simp at h
              omega
            refine ⟨?_, ?_⟩
            · rw [cta_run false c (e :: cs2) hp2 hs2,
                tokensOf_run c e cs2 hp2 hs2 he2, htk, ih2]
              simp [consRun, Nat.add_comm]
            · rw [cta_run true c (e :: cs2) hp2 hs2,
                tokensOf_run c e cs2 hp2 hs2 he2, htk, ih2, List.headD_cons, hd]
              simp [consRun, Nat.add_comm]

theorem strJoin_cons (s : String) (ss : List String) :
    String.join (s :: ss) = s ++ String.join ss := by
  have h : ∀ (ts : List String) (a : String),
      List.foldl (fun r t => r ++ t) a ts
        = a ++ List.foldl (fun r t => r ++ t) "" ts := by
    intro ts
    induction ts with
    | nil => intro a; simp
    | cons u ts ih =>
      intro a
      simp only [List.foldl_cons]
      rw [ih (a ++ u), ih ("" ++ u)]
      simp [String.append_assoc]
  simp only [String.join, List.foldl_cons]
  rw [h ss ("" ++ s)]
  simp

theorem fenceParity_zero (b : Bool) (ls : List (List Char)) : fenceParity b ls 0 = b := by
  simp [fenceParity]

theorem fenceParity_cons (b : Bool) (l : List Char) (ls : List (List Char)) (i : Nat) :
    fenceParity b (l :: ls) (i + 1)
      = fenceParity (if isFenceLine l then !b else b) ls i := by
  have h2 : ∀ n : Nat, (((n + 1) % 2 == 1) : Bool) = !((n % 2 == 1)) := by
    intro n
    rcases Nat.mod_two_eq_zero_or_one n with h | h <;> simp [Nat.add_mod, h]
  unfold fenceParity
  rw [List.take_succ_cons, List.countP_cons]
  by_cases hf : isFenceLine l
  · rw [if_pos hf]
    simp only [hf, if_true]
    rw [h2]
    cases b <;> cases (((List.take i ls).countP fun l => isFenceLine l) % 2 == 1) <;> simp
  · rw [if_neg hf]
    simp [hf]

theorem pickStream_cons (isCode b : Bool) (l : List Char) (ls : List (List Char)) :
    pickStream isCode b (l :: ls) =
      (if isFenceLine l then [] else if b = isCode then l ++ ['\n'] else [])
        ++ pickStream isCode (if isFenceLine l then !b else b) ls := by
  unfold pickStream
  rw [List.enum_cons, List.enumFrom_eq_map_enum, List.filterMap_cons, List.filterMap_map]
  have htail : List.filterMap
      ((fun il => if isFenceLine il.2 then none
        else if fenceParity b (l :: ls) il.1 = isCode then some (il.2 ++ ['\n']) else none)
        ∘ Prod.map (fun x => x + 1) id) ls.enum
      = List.filterMap (fun il => if isFenceLine il.2 then none
          else if fenceParity (if isFenceLine l then !b else b) ls il.1 = isCode
          then some (il.2 ++ ['\n']) else none) ls.enum := by
    apply List.filterMap_congr
    intro p _
    rcases p with ⟨i, x⟩
    simp only [Function.comp, Prod.map, id]
    rw [fenceParity_cons]
  rw [htail]
  by_cases hf : isFenceLine l
  · simp [hf, fenceParity_zero]
  · by_cases hb : b = isCode
    · simp [hf, fenceParity_zero, hb]
    · simp [hf, fenceParity_zero, hb]

theorem fenceScan_eq (ls : List (List Char)) : ∀ (b : Bool) (n c : List Char),
    fenceScan ls b n c = (n ++ pickStream false b ls, c ++ pickStream true b ls) := by
  induction ls with
  | nil =>
    intro b n c
    simp [fenceScan, pickStream]
  | cons l ls ih =>
    intro b n c
    rw [pickStream_cons, pickStream_cons]
    by_cases hf : isFenceLine l
    · simp only [fenceScan, hf, if_true]
      rw [ih (!b) n c]
      simp [hf]
    · cases b
      · simp only [fenceScan, hf, if_false, Bool.false_eq_true]
        rw [ih false (n ++ l ++ ['\n']) c]
        simp [hf, List.append_assoc]
      · simp only [fenceScan, hf, if_false, Bool.false_eq_true, if_true]
        rw [ih true n (c ++ l ++ ['\n'])]
        simp [hf, List.append_assoc]

/-- Claim C5 (amended): for every text, `estimateTokenCount text` equals
proseTokens + ceiling(1.2 × codeTokens), where the text is split into
lines, a line whose trimmed content starts with three backticks toggles
the fenced state and feeds neither stream (a line is code exactly when an
odd number of fence lines precede it), and each stream's token count is
the length of its token list: the maximal runs of characters that are
neither whitespace nor punctuation from the set, TOGETHER WITH one token
per punctuation character of the set (the splitting keeps each
punctuation character as a token rather than discarding it); empty input
gives 0. -/
theorem c5_estimate_formula (text : String) :
    estimateTokenCount text =
      (tokensOf (pickStream false false (splitOnNewlines text.data))).length
        + ceilTimes12
            ((tokensOf (pickStream true false (splitOnNewlines text.data))).length) := by
  by_cases h : text = ""
  · subst h
    decide
  · unfold estimateTokenCount
    rw [if_neg h]
    simp only [fenceScan_eq, List.nil_append]
    rw [(count_tokensOf _).1, (count_tokensOf _).1]

/-- Claim C5 counterexample: on the text "a.b" the code produces three
tokens (the dot is kept as a token by the capture group of the split),
while the claim's tokenization (splitting on punctuation and discarding
the fragments) predicts two; so the claimed formula disagrees with
`estimateTokenCount` at this input. -/
theorem c5_counterexample :
    estimateTokenCount "a.b" = 3 ∧ claimEstimateTokenCount "a.b" = 2 ∧
      estimateTokenCount "a.b" ≠ claimEstimateTokenCount "a.b" := by
  refine ⟨?_, ?_, ?_⟩ <;> decide

/-! ## Matching lemmas for the regex model -/

theorem zero_rmatch (x : List Char) : RE.zero.rmatch x = false := by
  induction x with
  | nil => rfl
  | cons a as ih => simpa [RE.rmatch, RE.deriv] using ih

theorem eps_rmatch_iff (x : List Char) : RE.eps.rmatch x = true ↔ x = [] := by
  cases x with
  | nil => simp [RE.rmatch, RE.matchEpsilon]
  | cons a as => simp [RE.rmatch, RE.deriv, zero_rmatch]

theorem cls_rmatch_iff (t : CharTest) (x : List Char) :
    (RE.cls t).rmatch x = true ↔ ∃ c, x = [c] ∧ t.test c = true := by
  cases x with
  | nil => simp [RE.rmatch, RE.matchEpsilon]
  | cons a as =>
    cases as with
    | nil =>
      by_cases h : t.test a = true
      · simp [RE.rmatch, RE.deriv, h, RE.matchEpsilon]
      · simp only [RE.rmatch, RE.deriv, h, if_false]
        simp [RE.matchEpsilon, h]
    | cons b bs =>
      by_cases h : t.test a = true <;>
        simp [RE.rmatch, RE.deriv, h, zero_rmatch]

theorem alt_rmatch_iff (P Q : RE) (x : List Char) :
    (RE.alt P Q).rmatch x = true ↔ P.rmatch x = true ∨ Q.rmatch x = true := by
  induction x generalizing P Q with
  | nil => simp [RE.rmatch, RE.matchEpsilon, Bool.or_eq_true]
  | cons a as ih =>
    simp only [RE.rmatch, RE.deriv]
    exact ih _ _

theorem comp_rmatch_iff (P Q : RE) (x : List Char) :
    (RE.comp P Q).rmatch x = true ↔
      ∃ t u, x = t ++ u ∧ P.rmatch t = true ∧ Q.rmatch u = true := by
  induction x generalizing P Q with
  | nil =>
    constructor
    · intro h
      simp only [RE.rmatch, RE.matchEpsilon, Bool.and_eq_true] at h
      exact ⟨[], [], rfl, h.1, h.2⟩
    · rintro ⟨t, u, habs, hP, hQ⟩
      rcases List.append_eq_nil.mp habs.symm with ⟨rfl, rfl⟩
      simp only [RE.rmatch] at hP hQ
      simp [RE.rmatch, RE.matchEpsilon, hP, hQ]
  | cons a as ih =>
    simp only [RE.rmatch, RE.deriv]
    by_cases he : P.matchEpsilon = true
    · rw [if_pos he, alt_rmatch_iff, ih]
      constructor
      · rintro (⟨t, u, heq, hP, hQ⟩ | h)
        · exact ⟨a :: t, u, by rw [heq, List.cons_append],
            by simpa [RE.rmatch] using hP, hQ⟩
        · exact ⟨[], a :: as, rfl, by simpa [RE.rmatch, RE.matchEpsilon] using he,
            by simpa [RE.rmatch] using h⟩
      · rintro ⟨t, u, heq, hP, hQ⟩
        cases t with
        | nil =>
          right
          rw [List.nil_append] at heq
          subst heq
          simpa [RE.rmatch] using hQ
        | cons b t2 =>
          left
          rw [List.cons_append] at heq
          injection heq with h1 h2
          subst h1
          exact ⟨t2, u, h2, by simpa [RE.rmatch] using hP, hQ⟩
    · rw [if_neg he, ih]
      constructor
      · rintro ⟨t, u, heq, hP, hQ⟩
        exact ⟨a :: t, u, by rw [heq, List.cons_append],
          by simpa [RE.rmatch] using hP, hQ⟩
      · rintro ⟨t, u, heq, hP, hQ⟩
        cases t with
        | nil =>
          exfalso
          simp only [RE.rmatch] at hP
          exact he hP
        | cons b t2 =>
          rw [List.cons_append] at heq
          injection heq with h1 h2
          subst h1
          exact ⟨t2, u, h2, by simpa [RE.rmatch] using hP, hQ⟩

theorem star_cls_rmatch_iff (t : CharTest) (x : List Char) :
    (RE.star (RE.cls t)).rmatch x = true ↔ ∀ c ∈ x, t.test c = true := by
  induction x with
  | nil => simp [RE.rmatch, RE.matchEpsilon]
  | cons a as ih =>
    simp only [RE.rmatch, RE.deriv]
    by_cases h : t.test a = true
    · rw [if_pos h, comp_rmatch_iff]
      constructor
      · rintro ⟨u, v, heq, hu, hv⟩
        rw [eps_rmatch_iff] at hu
        subst hu
        rw [List.nil_append] at heq
        subst heq
        intro c hc
        rcases List.mem_cons.mp hc with rfl | hc2
        · exact h
        · exact (ih.mp hv) c hc2
      · intro hall
        refine ⟨[], as, rfl, by simp [eps_rmatch_iff], ih.mpr ?_⟩
        intro c hc
        exact hall c (List.mem_cons_of_mem a hc)
    · rw [if_neg h]
      constructor
      · intro hcontr
        exfalso
        rcases (comp_rmatch_iff _ _ _).mp hcontr with ⟨u, v, _, hu, _⟩
        rw [zero_rmatch] at hu
        exact Bool.false_ne_true hu
      · intro hall
        exact absurd (hall a (List.mem_cons_self a as)) h

/-! ## Glob semantics of translated safe patterns -/

theorem bool_eq_of_iff {a b : Bool} (h : a = true ↔ b = true) : a = b := by
  cases a <;> cases b <;> simp_all

theorem dot_test (c : Char) : CharTest.dot.test c = !isLineTerminator c := by
  simp only [CharTest.dot, CharTest.test, ClassItem.test, isLineTerminator]
  simp [List.any_cons, eq_comm]

theorem globMatchB_nil (s : List Char) :
    globMatchB [] s = (s.isEmpty : Bool) := by
  cases s <;> simp [globMatchB]

theorem globMatchB_star (ps : List Char) (s : List Char) :
    globMatchB ('*' :: ps) s
      = (globMatchB ps s ||
          (match s with
           | [] => false
           | _ :: s2 => globMatchB ('*' :: ps) s2)) := by
  cases s <;> simp [globMatchB]

theorem globMatchB_lit (c : Char) (hc : c ≠ '*') (ps : List Char) (s : List Char) :
    globMatchB (c :: ps) s
      = (match s with
         | [] => false
         | d :: s2 => c = d && globMatchB ps s2) := by
  cases s <;> simp [globMatchB, hc]

theorem globMatchB_star_iff (ps : List Char) (s : List Char) :
    globMatchB ('*' :: ps) s = true ↔
      ∃ t u, s = t ++ u ∧ globMatchB ps u = true := by
  induction s with
  | nil =>
    rw [globMatchB_star]
    constructor
    · intro h
      simp only [Bool.or_eq_true] at h
      rcases h with h | h
      · exact ⟨[], [], rfl, h⟩
      · exact absurd h (by simp)
    · rintro ⟨t, u, heq, hu⟩
      rcases List.append_eq_nil.mp heq.symm with ⟨rfl, rfl⟩
      simp [hu]
  | cons d s2 ih =>
    rw [globMatchB_star]
    simp only [Bool.or_eq_true]
    constructor
    · rintro (h | h)
      · exact ⟨[], d :: s2, rfl, h⟩
      · rcases ih.mp h with ⟨t, u, heq, hu⟩
        exact ⟨d :: t, u, by rw [heq, List.cons_append], hu⟩
    · rintro ⟨t, u, heq, hu⟩
      cases t with
      | nil =>
        left
        rw [List.nil_append] at heq
        rw [← heq] at hu
        exact hu
      | cons b t2 =>
        right
        rw [List.cons_append] at heq
        injection heq with h1 h2
        exact ih.mpr ⟨t2, u, h2, hu⟩

theorem astOfPattern_rmatch (p : List Char) : ∀ (s : List Char),
    (∀ c ∈ s, isLineTerminator c = false) →
    (astOfPattern p).rmatch s = globMatchB p s := by
  induction p with
  | nil =>
    intro s _
    apply bool_eq_of_iff
    rw [show astOfPattern [] = RE.eps from rfl, eps_rmatch_iff, globMatchB_nil]
    cases s <;> simp
  | cons c ps ih =>
    intro s hs
    by_cases hc : c = '*'
    · subst hc
      apply bool_eq_of_iff
      rw [show astOfPattern ('*' :: ps)
            = RE.comp (RE.star (RE.cls CharTest.dot)) (astOfPattern ps) from by
          simp [astOfPattern]]
      rw [comp_rmatch_iff, globMatchB_star_iff]
      constructor
      · rintro ⟨t, u, heq, _, hu⟩
        refine ⟨t, u, heq, ?_⟩
        rw [← ih u fun c hcu => hs c (by rw [heq]; exact List.mem_append_right t hcu)]
        exact hu
      · rintro ⟨t, u, heq, hu⟩
        refine ⟨t, u, heq, ?_, ?_⟩
        · rw [star_cls_rmatch_iff]
          intro ch hch
          rw [dot_test, hs ch (by rw [heq]; exact List.mem_append_left u hch)]
          rfl
        · rw [ih u fun c hcu => hs c (by rw [heq]; exact List.mem_append_right t hcu)]
          exact hu
    · apply bool_eq_of_iff
      rw [show astOfPattern (c :: ps)
            = RE.comp (RE.cls (CharTest.one c)) (astOfPattern ps) from by
          simp [astOfPattern, hc]]
      rw [comp_rmatch_iff, globMatchB_lit c hc]
      cases s with
      | nil =>
        simp only [List.append_eq_nil]
        constructor
        · rintro ⟨t, u, heq, ht, _⟩
          rcases List.append_eq_nil.mp heq.symm with ⟨rfl, _⟩
          rw [cls_rmatch_iff] at ht
          rcases ht with ⟨c0, hcontr, _⟩
          exact absurd hcontr (by simp)
        · intro h
          exact absurd h (by simp)
      | cons d s2 =>
        constructor
        · rintro ⟨t, u, heq, ht, hu⟩
          rw [cls_rmatch_iff] at ht
          rcases ht with ⟨c0, rfl, htest⟩
          rw [List.singleton_append] at heq
          injection heq with h1 h2
          subst h1
          subst h2
          have hcd : c = d := by
            simpa [CharTest.test] using htest
          have hglob : globMatchB ps s2 = true := by
            rw [← ih s2 fun x hx => hs x (List.mem_cons_of_mem d hx)]
            exact hu
          simp [hcd, hglob]
        · intro h
          simp only [Bool.and_eq_true, decide_eq_true_eq] at h
          refine ⟨[c], s2, ?_, ?_, ?_⟩
          · rw [List.singleton_append, h.1]
          · rw [cls_rmatch_iff]
            exact ⟨c, rfl, by simp [CharTest.test]⟩
          · rw [ih s2 fun x hx => hs x (List.mem_cons_of_mem d hx)]
            exact h.2

/-! ## Parsing the translation of a safe pattern -/

theorem safe_char_facts (c : Char) (h : safePatternChar c = true) :
    c ≠ '\\' ∧ c ≠ '^' ∧ c ≠ '$' ∧ c ≠ '|' ∧ c ≠ '?' ∧ c ≠ '+' ∧
      c ≠ '(' ∧ c ≠ ')' ∧ c ≠ '[' ∧ c ≠ ']' ∧ c ≠ '{' ∧ c ≠ '}' := by
  simp only [safePatternChar, Bool.and_eq_true, decide_eq_true_eq, ne_eq] at h ⊢
  tauto

theorem translate_cons_dot (ps : List Char) :
    translateGlobChars ('.' :: ps) = '\\' :: '.' :: translateGlobChars ps := by
  simp [translateGlobChars]

theorem translate_cons_star (ps : List Char) :
    translateGlobChars ('*' :: ps) = '.' :: '*' :: translateGlobChars ps := by
  simp [translateGlobChars]

theorem translate_cons_lit (c : Char) (ps : List Char) (hdot : c ≠ '.')
    (hstar : c ≠ '*') :
    translateGlobChars (c :: ps) = c :: translateGlobChars ps := by
  simp [translateGlobChars, hdot, hstar]

theorem translate_length (p : List Char) :
    p.length ≤ (translateGlobChars p).length := by
  induction p with
  | nil => simp [translateGlobChars]
  | cons c ps ih =>
    by_cases hdot : c = '.'
    · subst hdot
      rw [translate_cons_dot]
      simp only [List.length_cons]
      omega
    · by_cases hstar : c = '*'
      · subst hstar
        rw [translate_cons_star]
        simp only [List.length_cons]
        omega
      · rw [translate_cons_lit c ps hdot hstar]
        simp only [List.length_cons]
        omega

theorem translated_shape (p : List Char)
    (h : ∀ c ∈ p, safePatternChar c = true) :
    translateGlobChars p = [] ∨
      ∃ h0 rest, translateGlobChars p = h0 :: rest ∧
        h0 ≠ '*' ∧ h0 ≠ '+' ∧ h0 ≠ '?' := by
  cases p with
  | nil => left; rfl
  | cons c ps =>
    right
    by_cases hdot : c = '.'
    · subst hdot
      exact ⟨'\\', '.' :: translateGlobChars ps, translate_cons_dot ps,
        by decide, by decide, by decide⟩
    · by_cases hstar : c = '*'
      · subst hstar
        exact ⟨'.', '*' :: translateGlobChars ps, translate_cons_star ps,
          by decide, by decide, by decide⟩
      · have hf := safe_char_facts c (h c (List.mem_cons_self c ps))
        exact ⟨c, translateGlobChars ps, translate_cons_lit c ps hdot hstar,
          hstar, hf.2.2.2.2.2.1, hf.2.2.2.2.1⟩

theorem applyPostfix_translated (r : RE) (ps : List Char)
    (h : ∀ c ∈ ps, safePatternChar c = true) :
    applyPostfix r (translateGlobChars ps) = (r, translateGlobChars ps) := by
  rcases translated_shape ps h with h0 | ⟨h0, rest, heq, hns, hnp, hnq⟩
  · rw [h0]
    rfl
  · rw [heq]
    simp [applyPostfix, hns, hnp, hnq]

theorem parseAtom_safe (c : Char) (cs : List Char) (h : safePatternChar c = true)
    (hdot : c ≠ '.') (hstar : c ≠ '*') :
    parseAtom (c :: cs) = some (.cls (.one c), cs) := by
  obtain ⟨h1, h2, h3, h4, h5, h6, h7, h8, h9, h10, h11, h12⟩ := safe_char_facts c h
  simp [parseAtom, h1, hdot, h9, hstar, h6, h5, h7, h8, h11, h12, h2, h3]

theorem parseSeq_step (n : Nat) (c : Char) (cs : List Char) (hbar : ¬c = '|')
    (a : RE) (rest : List Char) (ha : parseAtom (c :: cs) = some (a, rest))
    (a2 : RE) (rest2 : List Char) (hpost : applyPostfix a rest = (a2, rest2))
    (b : RE) (rest3 : List Char) (hb : parseSeq n rest2 = some (b, rest3)) :
    parseSeq (n + 1) (c :: cs) = some (RE.comp a2 b, rest3) := by
  simp only [parseSeq, if_neg hbar, ha, hpost, hb, Option.bind_eq_bind,
    Option.some_bind]
  rfl

theorem parseSeq_translated (p : List Char) : ∀ fuel : Nat, p.length + 1 ≤ fuel →
    (∀ c ∈ p, safePatternChar c = true) →
    parseSeq fuel (translateGlobChars p) = some (astOfPattern p, []) := by
  induction p with
  | nil =>
    intro fuel hf _
    cases fuel with
    | zero => omega
    | succ n => rfl
  | cons c ps ih =>
    intro fuel hf hsafe
    cases fuel with
    | zero => omega
    | succ n =>
      have hsc := hsafe c (List.mem_cons_self c ps)
      have hsps : ∀ x ∈ ps, safePatternChar x = true := fun x hx =>
        hsafe x (List.mem_cons_of_mem c hx)
      have hih : parseSeq n (translateGlobChars ps) = some (astOfPattern ps, []) :=
        ih n (by simp only [List.length_cons] at hf; omega) hsps
      by_cases hdot : c = '.'
      · subst hdot
        rw [translate_cons_dot]
        have ha : parseAtom ('\\' :: '.' :: translateGlobChars ps)
            = some (escAtom '.', translateGlobChars ps) := by
          simp [parseAtom]
        have hesc : escAtom '.' = RE.cls (.one '.') := by decide
        rw [parseSeq_step n '\\' ('.' :: translateGlobChars ps) (by decide)
          (escAtom '.') (translateGlobChars ps) ha
          (escAtom '.') (translateGlobChars ps)
          (applyPostfix_translated (escAtom '.') ps hsps)
          (astOfPattern ps) [] hih]
        rw [hesc]
        have : astOfPattern ('.' :: ps)
            = RE.comp (RE.cls (.one '.')) (astOfPattern ps) := by
          simp [astOfPattern]
        rw [this]
      · by_cases hstar : c = '*'
        · subst hstar
          rw [translate_cons_star]
          have ha : parseAtom ('.' :: '*' :: translateGlobChars ps)
              = some (RE.cls CharTest.dot, '*' :: translateGlobChars ps) := by
            simp [parseAtom]
          have hpost : applyPostfix (RE.cls CharTest.dot) ('*' :: translateGlobChars ps)
              = (RE.star (RE.cls CharTest.dot), translateGlobChars ps) := by
            rcases translated_shape ps hsps with h0 | ⟨h0, rest, heq, _, _, hnq⟩
            · rw [h0]
              rfl
            · rw [heq]
              simp [applyPostfix, skipLazy, hnq]
          rw [parseSeq_step n '.' ('*' :: translateGlobChars ps) (by decide)
            (RE.cls CharTest.dot) ('*' :: translateGlobChars ps) ha
            (RE.star (RE.cls CharTest.dot)) (translateGlobChars ps) hpost
            (astOfPattern ps) [] hih]
          have : astOfPattern ('*' :: ps)
              = RE.comp (RE.star (RE.cls CharTest.dot)) (astOfPattern ps) := by
            simp [astOfPattern]
          rw [this]
        · rw [translate_cons_lit c ps hdot hstar]
          have hf2 := safe_char_facts c hsc
          rw [parseSeq_step n c (translateGlobChars ps) hf2.2.2.2.1
            (RE.cls (.one c)) (translateGlobChars ps)
            (parseAtom_safe c (translateGlobChars ps) hsc hdot hstar)
            (RE.cls (.one c)) (translateGlobChars ps)
            (applyPostfix_translated (RE.cls (.one c)) ps hsps)
            (astOfPattern ps) [] hih]
          have : astOfPattern (c :: ps)
              = RE.comp (RE.cls (.one c)) (astOfPattern ps) := by
            simp [astOfPattern, hstar]
          rw [this]

theorem parseRE_translated (p : List Char)
    (h : ∀ c ∈ p, safePatternChar c = true) :
    parseRE (translateGlobChars p) = some (astOfPattern p) := by
  unfold parseRE
  have hlen : p.length + 1 ≤ (translateGlobChars p).length + 1 := by
    have := translate_length p
    omega
  cases hfl : (translateGlobChars p).length + 1 with
  | zero => omega
  | succ m =>
    have hseq : parseSeq (m + 1) (translateGlobChars p)
        = some (astOfPattern p, []) := by
      apply parseSeq_translated p (m + 1) _ h
      omega
    simp only [parseAlt, hseq, Option.bind_eq_bind, Option.some_bind]

/-! ## Characterisation of the ignore matcher on safe patterns -/

theorem regexTestAnchored_safe (p : String) (name : String)
    (hp : safePattern p = true) (hn : safeName name = true) :
    regexTestAnchored (translateGlob p) name
      = .ok (globMatchB p.data name.data) := by
  have hterm : ∀ c ∈ name.data, isLineTerminator c = false := by
    intro c hc
    have h2 := (List.all_eq_true.mp hn) c hc
    simpa using h2
  have hall : ∀ c ∈ p.data, safePatternChar c = true := by
    intro c hc
    simp only [safePattern, List.all_eq_true] at hp
    exact hp c hc
  unfold regexTestAnchored
  have hdata : (translateGlob p).data = translateGlobChars p.data := rfl
  rw [hdata, parseRE_translated p.data hall]
  simp [astOfPattern_rmatch p.data name.data hterm]

theorem matchesSome_safe (name : String) (hn : safeName name = true) :
    ∀ pats : List String, (∀ p ∈ pats, safePattern p = true) →
    matchesSome pats name = .ok (pats.any fun p =>
      p == name || (p.data.contains '*' && globMatchB p.data name.data)) := by
  intro pats
  induction pats with
  | nil => intro _; rfl
  | cons p ps ih =>
    intro hp
    have hpsafe := hp p (List.mem_cons_self p ps)
    have hps : ∀ q ∈ ps, safePattern q = true := fun q hq =>
      hp q (List.mem_cons_of_mem p hq)
    by_cases he : p = name
    · simp [matchesSome, he, List.any_cons]
    · have hre := regexTestAnchored_safe p name hpsafe hn
      by_cases hc : p.data.contains '*' = true
      · cases hg : globMatchB p.data name.data with
        | true =>
          simp only [matchesSome, if_neg he, hc, if_true, hre, hg]
          simp only [List.any_cons, hc, hg, Bool.and_true, Bool.true_and]
          simp [List.any_cons]
        | false =>
          simp only [matchesSome, if_neg he, hc, if_true, hre, hg]
          rw [ih hps]
          have hfp : (p == name
              || (p.data.contains '*' && globMatchB p.data name.data)) = false := by
            simp [he, hg]
          simp [List.any_cons, hfp, he, hg]
      · have hc2 : p.data.contains '*' = false := by simpa using hc
        simp only [matchesSome, if_neg he, hc2, if_false, Bool.false_eq_true]
        rw [ih hps]
        simp only [List.any_cons, he, hc2]
        simp [List.any_cons]
        intro hmem
        exact absurd hmem he

/-- Claim C3 (amended): for every path and every list of patterns built
from characters that are not regex metacharacters (besides the wildcard
`*` and the dot, which the translation escapes), and every basename
without line-terminator characters, `shouldIgnore` returns (without
raising) exactly: true iff some pattern equals the basename exactly, or
contains `*` and glob-matches the basename — the basename decomposing
into the pattern's literal segments with an arbitrary gap at each `*`.
(For patterns containing other regex metacharacters the code does NOT
escape them — only `.` is escaped — so they keep their regex meaning, as
the counterexample shows.) -/
theorem c3_shouldIgnore_glob (itemPath : String) (pats : List String)
    (hp : ∀ p ∈ pats, safePattern p = true)
    (hn : safeName (pathBasename itemPath) = true) :
    shouldIgnore itemPath pats = .ok (pats.any fun p =>
      p == pathBasename itemPath
        || (p.data.contains '*' && globMatchB p.data (pathBasename itemPath).data)) := by
  unfold shouldIgnore
  exact matchesSome_safe (pathBasename itemPath) hn pats hp

theorem c3_shouldIgnore_glob_witness :
    shouldIgnore "/proj/notes.txt" ["*.txt"]
      = .ok ((["*.txt"] : List String).any fun p =>
          p == pathBasename "/proj/notes.txt"
            || (p.data.contains '*'
                && globMatchB p.data (pathBasename "/proj/notes.txt").data)) :=
  c3_shouldIgnore_glob "/proj/notes.txt" ["*.txt"]
    (by intro p hp; fin_cases hp; decide) (by decide)

/-- Claim C3 counterexample: the code escapes only `.`, so the `+` in the
pattern "a+*" keeps its regex meaning: the translated regex `^a+.*$`
matches the basename "aa", whereas the claim (every metacharacter
escaped as a literal) predicts no match. -/
theorem c3_counterexample :
    shouldIgnore "aa" ["a+*"] = .ok true ∧
      claimShouldIgnore "aa" ["a+*"] = false := by
  constructor
  · rfl
  · have h2 : globMatchB ['+', '*'] ['a'] = false := by
      rw [globMatchB_lit '+' (by decide)]
      simp
    have h1 : globMatchB ['a', '+', '*'] ['a', 'a'] = false := by
      rw [globMatchB_lit 'a' (by decide)]
      simp [h2]
    have hbase : pathBasename "aa" = "aa" := rfl
    have hdata : ("a+*" : String).data = ['a', '+', '*'] := rfl
    have hdata2 : ("aa" : String).data = ['a', 'a'] := rfl
    have hcont : (['a', '+', '*'] : List Char).contains '*' = true := by decide
    simp [claimShouldIgnore, hbase, hdata, hdata2, hcont, h1]

/-- Claim C2 (refuted by the code): `shouldIgnore` is not defensive.  The
pattern "*[" translates to the malformed regex source `.*[` (anchored
`^.*[$`, an unterminated character class), whose construction throws a
`SyntaxError` instead of making the pattern fail to match, and the
exception aborts a `generateFileMap` walk that consults the pattern. -/
theorem c2_malformed_pattern_throws :
    shouldIgnore "x" ["*["] = .error ".*[" ∧
      generateFileMap (some (.dir [("x", .file "hi")])) "/r" ⟨none, ["*["]⟩
        = ([FSOp.readdir "/r"], .error (.regexError ".*[")) :=
  ⟨rfl, rfl⟩

/-! ## Path lemmas -/

theorem takeWhile_all_append (p : Char → Bool) (xs ys : List Char)
    (h : ∀ x ∈ xs, p x = true) :
    (xs ++ ys).takeWhile p = xs ++ ys.takeWhile p := by
  induction xs with
  | nil => simp
  | cons x xs ih =>
    have hx := h x (List.mem_cons_self x xs)
    simp only [List.cons_append, List.takeWhile_cons, hx, if_true]
    rw [ih fun y hy => h y (List.mem_cons_of_mem x hy)]

theorem pathBasename_join (cur item : String) (h : validName item = true) :
    pathBasename (pathJoin cur item) = item := by
  have hmem : ('/' : Char) ∉ item.data := by
    simp only [validName, Bool.and_eq_true, Bool.not_eq_true'] at h
    simpa using h.2
  apply String.ext
  show ((pathJoin cur item).data.reverse.takeWhile fun c => decide (c ≠ '/')).reverse
      = item.data
  have hdata : (pathJoin cur item).data = cur.data ++ '/' :: item.data := by
    show (cur ++ "/" ++ item).data = _
    simp [String.data_append]
  rw [hdata, List.reverse_append, List.reverse_cons, List.append_assoc]
  rw [takeWhile_all_append _ _ _ (by
    intro x hx
    have hxm : x ∈ item.data := by simpa using hx
    have : x ≠ '/' := fun hcontr => hmem (hcontr ▸ hxm)
    simpa using this)]
  have hstop : ((['/'] ++ cur.data.reverse).takeWhile fun c => decide (c ≠ '/')) = [] := by
    simp
  rw [hstop]
  simp

theorem pathRelative_join (root s : String) :
    pathRelative root (root ++ "/" ++ s) = s := by
  have hdata : (root ++ "/" ++ s).data = (root.data ++ ['/']) ++ s.data := by
    simp [String.data_append]
  have hpre : (root ++ "/").data.isPrefixOf (root ++ "/" ++ s).data = true := by
    rw [hdata]
    have : (root ++ "/").data = root.data ++ ['/'] := by simp [String.data_append]
    rw [this]
    exact List.isPrefixOf_iff_prefix.mpr (List.prefix_append _ _)
  unfold pathRelative
  rw [if_pos hpre]
  apply String.ext
  show (root ++ "/" ++ s).data.drop (root.data.length + 1) = s.data
  rw [hdata]
  have hlen : (root.data ++ ['/']).length = root.data.length + 1 := by
    simp
  rw [← hlen, List.drop_left]

theorem pathJoin_assoc (a b c : String) :
    pathJoin (pathJoin a b) c = pathJoin a (b ++ "/" ++ c) := by
  show a ++ "/" ++ b ++ "/" ++ c = a ++ "/" ++ (b ++ "/" ++ c)
  simp [String.append_assoc]

theorem strJoin_append (a b : List String) :
    String.join (a ++ b) = String.join a ++ String.join b := by
  induction a with
  | nil => simp [String.join]
  | cons s ss ih =>
    rw [List.cons_append, strJoin_cons, strJoin_cons, ih, String.append_assoc]

theorem indentOf_snoc (ancestors : List Bool) (b : Bool) :
    indentOf (ancestors ++ [b])
      = indentOf ancestors ++ (if b then "    " else "│   ") := by
  unfold indentOf
  rw [List.map_append, strJoin_append]
  simp [String.join, strJoin_cons]

/-! ## The walk computes the specification-side renderings -/

theorem matchesSome_ok (name : String) :
    ∀ pats : List String, patsOK pats = true →
    matchesSome pats name = .ok (ignoresB pats name) := by
  intro pats
  induction pats with
  | nil => intro _; rfl
  | cons p ps ih =>
    intro hok
    have hps : patsOK ps = true := by
      simp only [patsOK, List.all_cons, Bool.and_eq_true] at hok
      exact hok.2
    have hphead : (!p.data.contains '*' || (parseRE (translateGlob p).data).isSome) = true := by
      simp only [patsOK, List.all_cons, Bool.and_eq_true] at hok
      exact hok.1
    by_cases he : p = name
    · simp [matchesSome, he, ignoresB, List.any_cons]
    · by_cases hc : p.data.contains '*' = true
      · have hsome : (parseRE (translateGlob p).data).isSome = true := by
          rcases Bool.or_eq_true_iff.mp hphead with h | h
          · rw [hc] at h
            exact absurd h (by simp)
          · exact h
        rcases Option.isSome_iff_exists.mp hsome with ⟨r, hr⟩
        have hre : regexTestAnchored (translateGlob p) name = .ok (r.rmatch name.data) := by
          unfold regexTestAnchored
          rw [hr]
        cases hm : r.rmatch name.data with
        | true =>
          simp only [matchesSome, if_neg he, hc, if_true, hre, hm]
          have : ignoresB (p :: ps) name = true := by
            simp only [ignoresB, List.any_cons, hr, hc, hm]
            simp
          rw [this]
        | false =>
          simp only [matchesSome, if_neg he, hc, if_true, hre, hm]
          rw [ih hps]
          have : ignoresB (p :: ps) name = ignoresB ps name := by
            simp only [ignoresB, List.any_cons, hr, hc, hm]
            simp [he]
          rw [this]
      · have hc2 : p.data.contains '*' = false := by simpa using hc
        simp only [matchesSome, if_neg he, hc2, if_false, Bool.false_eq_true]
        rw [ih hps]
        have : ignoresB (p :: ps) name = ignoresB ps name := by
          simp only [ignoresB, List.any_cons, hc2]
          simp [he]
        rw [this]

theorem processItems_nil (pats : List String) (d cur ind : String) (acc : WalkAcc) :
    processItems pats d cur ind acc [] = ([], .ok acc) := rfl

theorem processItems_cons_err (pats : List String) (d cur ind : String)
    (acc : WalkAcc) (item : String) (entry : FSEntry)
    (rest : List (String × FSEntry)) (src : String)
    (h : shouldIgnore (pathJoin cur item) pats = .error src) :
    processItems pats d cur ind acc ((item, entry) :: rest)
      = ([], .error (.regexError src)) := by
  simp only [processItems, h]

theorem processItems_cons_skip (pats : List String) (d cur ind : String)
    (acc : WalkAcc) (item : String) (entry : FSEntry)
    (rest : List (String × FSEntry))
    (h : shouldIgnore (pathJoin cur item) pats = .ok true) :
    processItems pats d cur ind acc ((item, entry) :: rest)
      = processItems pats d cur ind acc rest := by
  simp only [processItems, h]

theorem processItems_cons_file (pats : List String) (d cur ind : String)
    (acc : WalkAcc) (item content : String)
    (rest : List (String × FSEntry))
    (h : shouldIgnore (pathJoin cur item) pats = .ok false) :
    processItems pats d cur ind acc ((item, .file content) :: rest)
      = (FSOp.stat (pathJoin cur item) :: FSOp.readFile (pathJoin cur item)
           :: (processItems pats d cur ind
                ⟨acc.fileMap ++ ind ++ (if rest.isEmpty then "└── " else "├── ")
                   ++ item ++ "\n",
                 acc.fileContents ++ "File: "
                   ++ pathRelative d (pathJoin cur item) ++ "\n```\n"
                   ++ content ++ "\n```\n\n",
                 acc.fileTokens ++ [(pathRelative d (pathJoin cur item),
                   estimateTokenCount content)]⟩ rest).1,
         (processItems pats d cur ind
            ⟨acc.fileMap ++ ind ++ (if rest.isEmpty then "└── " else "├── ")
               ++ item ++ "\n",
             acc.fileContents ++ "File: "
               ++ pathRelative d (pathJoin cur item) ++ "\n```\n"
               ++ content ++ "\n```\n\n",
             acc.fileTokens ++ [(pathRelative d (pathJoin cur item),
               estimateTokenCount content)]⟩ rest).2) := by
  simp only [processItems, processEntry, h]
  cases hres : processItems pats d cur ind
      ⟨acc.fileMap ++ ind ++ (if rest.isEmpty then "└── " else "├── ")
         ++ item ++ "\n",
       acc.fileContents ++ "File: "
         ++ pathRelative d (pathJoin cur item) ++ "\n```\n"
         ++ content ++ "\n```\n\n",
       acc.fileTokens ++ [(pathRelative d (pathJoin cur item),
         estimateTokenCount content)]⟩ rest with
  | mk ops3 r => simp [hres]

theorem processItems_cons_dir (pats : List String) (d cur ind : String)
    (acc : WalkAcc) (item : String) (sub rest : List (String × FSEntry))
    (ops2 : List FSOp) (acc2 : WalkAcc)
    (h : shouldIgnore (pathJoin cur item) pats = .ok false)
    (hsub : processItems pats d (pathJoin cur item)
        (ind ++ (if rest.isEmpty then "    " else "│   "))
        ⟨acc.fileMap ++ ind ++ (if rest.isEmpty then "└── " else "├── ")
           ++ item ++ "\n",
         acc.fileContents, acc.fileTokens⟩ sub = (ops2, .ok acc2)) :
    processItems pats d cur ind acc ((item, .dir sub) :: rest)
      = (FSOp.stat (pathJoin cur item)
           :: ((FSOp.readdir (pathJoin cur item) :: ops2)
                ++ (processItems pats d cur ind acc2 rest).1),
         (processItems pats d cur ind acc2 rest).2) := by
  simp only [processItems, processEntry, hsub]
  cases hres : processItems pats d cur ind acc2 rest with
  | mk ops3 r => simp [hres, h]

theorem specOps_skip (pats : List String) (cur item : String) (e : FSEntry)
    (rest : List (String × FSEntry)) (h : ignoresB pats item = true) :
    specOps pats cur ((item, e) :: rest) = specOps pats cur rest := by
  rw [specOps.eq_def]
  simp [h]

theorem specOps_file (pats : List String) (cur item content : String)
    (rest : List (String × FSEntry)) (h : ignoresB pats item = false) :
    specOps pats cur ((item, .file content) :: rest)
      = FSOp.stat (pathJoin cur item) :: FSOp.readFile (pathJoin cur item)
          :: specOps pats cur rest := by
  rw [specOps.eq_def]
  simp [h]

theorem specOps_dir (pats : List String) (cur item : String)
    (sub rest : List (String × FSEntry)) (h : ignoresB pats item = false) :
    specOps pats cur ((item, .dir sub) :: rest)
      = FSOp.stat (pathJoin cur item) :: FSOp.readdir (pathJoin cur item)
          :: (specOps pats (pathJoin cur item) sub ++ specOps pats cur rest) := by
  rw [specOps.eq_def]
  simp [h]

theorem specLines_skip (pats : List String) (ancestors : List Bool) (item : String)
    (e : FSEntry) (rest : List (String × FSEntry)) (h : ignoresB pats item = true) :
    specLines pats ancestors ((item, e) :: rest) = specLines pats ancestors rest := by
  rw [specLines.eq_def]
  simp [h]

theorem specLines_file (pats : List String) (ancestors : List Bool)
    (item content : String) (rest : List (String × FSEntry))
    (h : ignoresB pats item = false) :
    specLines pats ancestors ((item, .file content) :: rest)
      = indentOf ancestors ++ connectorOf rest.isEmpty ++ item ++ "\n"
          ++ "" ++ specLines pats ancestors rest := by
  rw [specLines.eq_def]
  simp [h]

theorem specLines_dir (pats : List String) (ancestors : List Bool) (item : String)
    (sub rest : List (String × FSEntry)) (h : ignoresB pats item = false) :
    specLines pats ancestors ((item, .dir sub) :: rest)
      = indentOf ancestors ++ connectorOf rest.isEmpty ++ item ++ "\n"
          ++ specLines pats (ancestors ++ [rest.isEmpty]) sub
          ++ specLines pats ancestors rest := by
  rw [specLines.eq_def]
  simp [h]

theorem specContents_skip (pats : List String) (relPfx item : String) (e : FSEntry)
    (rest : List (String × FSEntry)) (h : ignoresB pats item = true) :
    specContents pats relPfx ((item, e) :: rest)
      = specContents pats relPfx rest := by
  rw [specContents.eq_def]
  simp [h]

theorem specContents_file (pats : List String) (relPfx item content : String)
    (rest : List (String × FSEntry)) (h : ignoresB pats item = false) :
    specContents pats relPfx ((item, .file content) :: rest)
      = "File: " ++ (relPfx ++ item) ++ "\n```\n" ++ content ++ "\n```\n\n"
          ++ specContents pats relPfx rest := by
  rw [specContents.eq_def]
  simp [h]

theorem specContents_dir (pats : List String) (relPfx item : String)
    (sub rest : List (String × FSEntry)) (h : ignoresB pats item = false) :
    specContents pats relPfx ((item, .dir sub) :: rest)
      = specContents pats (relPfx ++ item ++ "/") sub
          ++ specContents pats relPfx rest := by
  rw [specContents.eq_def]
  simp [h]

theorem specFileTokens_skip (pats : List String) (relPfx item : String)
    (e : FSEntry) (rest : List (String × FSEntry)) (h : ignoresB pats item = true) :
    specFileTokens pats relPfx ((item, e) :: rest)
      = specFileTokens pats relPfx rest := by
  rw [specFileTokens.eq_def]
  simp [h]

theorem specFileTokens_file (pats : List String) (relPfx item content : String)
    (rest : List (String × FSEntry)) (h : ignoresB pats item = false) :
    specFileTokens pats relPfx ((item, .file content) :: rest)
      = (relPfx ++ item, estimateTokenCount content)
          :: specFileTokens pats relPfx rest := by
  rw [specFileTokens.eq_def]
  simp [h]

theorem specFileTokens_dir (pats : List String) (relPfx item : String)
    (sub rest : List (String × FSEntry)) (h : ignoresB pats item = false) :
    specFileTokens pats relPfx ((item, .dir sub) :: rest)
      = specFileTokens pats (relPfx ++ item ++ "/") sub
          ++ specFileTokens pats relPfx rest := by
  rw [specFileTokens.eq_def]
  simp [h]

theorem walk_spec (pats : List String) (hpats : patsOK pats = true) (dirPath : String) :
    ∀ n : Nat, ∀ entries : List (String × FSEntry), entriesSize entries ≤ n →
    validEntries entries = true →
    ∀ relPfx currentPath : String,
      (∀ s : String, pathRelative dirPath (pathJoin currentPath s) = relPfx ++ s) →
    ∀ (ancestors : List Bool) (acc : WalkAcc),
    processItems pats dirPath currentPath (indentOf ancestors) acc entries
      = (specOps pats currentPath entries,
         .ok ⟨acc.fileMap ++ specLines pats ancestors entries,
              acc.fileContents ++ specContents pats relPfx entries,
              acc.fileTokens ++ specFileTokens pats relPfx entries⟩) := by
  intro n
  induction n with
  | zero =>
    intro entries hsz _ _ _ _ _ _
    cases entries with
    | nil =>
      simp [processItems_nil, specOps, specLines, specContents, specFileTokens]
    | cons head rest =>
      rcases head with ⟨item, entry⟩
      exfalso
      simp only [entriesSize] at hsz
      omega
  | succ n ih =>
    intro entries hsz hvalid relPfx currentPath hrel ancestors acc
    cases entries with
    | nil =>
      simp [processItems_nil, specOps, specLines, specContents, specFileTokens]
    | cons head rest =>
      rcases head with ⟨item, entry⟩
      have hv : validName item = true ∧ entry.valid = true ∧ validEntries rest = true := by
        simp only [validEntries, Bool.and_eq_true] at hvalid
        exact ⟨hvalid.1.1, hvalid.1.2, hvalid.2⟩
      have hbase : pathBasename (pathJoin currentPath item) = item :=
        pathBasename_join _ _ hv.1
      have hsi : shouldIgnore (pathJoin currentPath item) pats
          = .ok (ignoresB pats item) := by
        unfold shouldIgnore
        rw [hbase]
        exact matchesSome_ok item pats hpats
      have hszrest : entriesSize rest ≤ n := by
        simp only [entriesSize] at hsz
        omega
      by_cases hig : ignoresB pats item = true
      · rw [processItems_cons_skip pats dirPath currentPath (indentOf ancestors)
            acc item entry rest (by rw [hsi, hig])]
        rw [ih rest hszrest hv.2.2 relPfx currentPath hrel ancestors acc]
        rw [specOps_skip _ _ _ _ _ hig, specLines_skip _ _ _ _ _ hig,
          specContents_skip _ _ _ _ _ hig, specFileTokens_skip _ _ _ _ _ hig]
      · have hig2 : ignoresB pats item = false := by simpa using hig
        cases entry with
        | file content =>
          rw [processItems_cons_file pats dirPath currentPath (indentOf ancestors)
            acc item content rest (by rw [hsi, hig2])]
          rw [ih rest hszrest hv.2.2 relPfx currentPath hrel ancestors
            ⟨acc.fileMap ++ indentOf ancestors
               ++ (if rest.isEmpty then "└── " else "├── ") ++ item ++ "\n",
             acc.fileContents ++ "File: "
               ++ pathRelative dirPath (pathJoin currentPath item) ++ "\n```\n"
               ++ content ++ "\n```\n\n",
             acc.fileTokens ++ [(pathRelative dirPath (pathJoin currentPath item),
               estimateTokenCount content)]⟩]
          rw [hrel item]
          rw [specOps_file _ _ _ _ _ hig2, specLines_file _ _ _ _ _ hig2,
            specContents_file _ _ _ _ _ hig2, specFileTokens_file _ _ _ _ _ hig2]
          simp only [connectorOf, Prod.mk.injEq, Except.ok.injEq, WalkAcc.mk.injEq]
          refine ⟨trivial, ?_, ?_, ?_⟩
          · simp [String.append_assoc]
          · simp [String.append_assoc]
          · simp [List.append_assoc]
        | dir sub =>
          have hsubvalid : validEntries sub = true := by
            have h2 := hv.2.1
            simpa [FSEntry.valid] using h2
          have hszsub : entriesSize sub ≤ n := by
            simp only [entriesSize, entrySize] at hsz
            omega
          have hrelsub : ∀ s : String,
              pathRelative dirPath (pathJoin (pathJoin currentPath item) s)
                = (relPfx ++ item ++ "/") ++ s := by
            intro s
            rw [pathJoin_assoc, hrel (item ++ "/" ++ s)]
            simp [String.append_assoc]
          have hsub := ih sub hszsub hsubvalid (relPfx ++ item ++ "/")
            (pathJoin currentPath item) hrelsub (ancestors ++ [rest.isEmpty])
            ⟨acc.fileMap ++ indentOf ancestors
               ++ (if rest.isEmpty then "└── " else "├── ") ++ item ++ "\n",
             acc.fileContents, acc.fileTokens⟩
          rw [indentOf_snoc] at hsub
          rw [processItems_cons_dir pats dirPath currentPath (indentOf ancestors)
            acc item sub rest _ _ (by rw [hsi, hig2]) hsub]
          rw [ih rest hszrest hv.2.2 relPfx currentPath hrel ancestors
            ⟨(acc.fileMap ++ indentOf ancestors
                ++ (if rest.isEmpty then "└── " else "├── ") ++ item ++ "\n")
               ++ specLines pats (ancestors ++ [rest.isEmpty]) sub,
             acc.fileContents ++ specContents pats (relPfx ++ item ++ "/") sub,
             acc.fileTokens ++ specFileTokens pats (relPfx ++ item ++ "/") sub⟩]
          rw [specOps_dir _ _ _ _ _ hig2, specLines_dir _ _ _ _ _ hig2,
            specContents_dir _ _ _ _ _ hig2, specFileTokens_dir _ _ _ _ _ hig2]
          simp only [connectorOf, Prod.mk.injEq, Except.ok.injEq, WalkAcc.mk.injEq]
          refine ⟨?_, ?_, ?_, ?_⟩
          · simp [List.cons_append]
          · simp [String.append_assoc]
          · simp [String.append_assoc]
          · simp [List.append_assoc]

theorem generateFileMap_spec (entries : List (String × FSEntry)) (dirPath : String)
    (options : FileMapOptions) (hp : patsOK options.ignorePatterns = true)
    (hv : validEntries entries = true) :
    generateFileMap (some (.dir entries)) dirPath options
      = ((FSOp.readdir dirPath :: specOps options.ignorePatterns dirPath entries)
           ++ (match options.outputPath with
               | none => []
               | some outputPath =>
                 [FSOp.writeFile outputPath
                   ("# Directory Structure for " ++ pathBasename dirPath ++ "\n\n```\n"
                     ++ (pathBasename dirPath ++ "\n"
                          ++ specLines options.ignorePatterns [] entries)
                     ++ "```\n\n# File Contents\n\n"
                     ++ specContents options.ignorePatterns "" entries)]),
         .ok ⟨pathBasename dirPath ++ "\n" ++ specLines options.ignorePatterns [] entries,
              specContents options.ignorePatterns "" entries,
              specFileTokens options.ignorePatterns "" entries,
              ⟨estimateTokenCount (pathBasename dirPath ++ "\n"
                   ++ specLines options.ignorePatterns [] entries)
                 + estimateTokenCount (specContents options.ignorePatterns "" entries),
               estimateTokenCount (pathBasename dirPath ++ "\n"
                   ++ specLines options.ignorePatterns [] entries),
               estimateTokenCount (specContents options.ignorePatterns "" entries)⟩⟩) := by
  have hrel0 : ∀ s : String, pathRelative dirPath (pathJoin dirPath s) = "" ++ s := by
    intro s
    show pathRelative dirPath (dirPath ++ "/" ++ s) = "" ++ s
    rw [pathRelative_join]
    simp
  have hw := walk_spec options.ignorePatterns hp dirPath (entriesSize entries)
    entries le_rfl hv "" dirPath hrel0 []
    ⟨pathBasename dirPath ++ "\n", "", []⟩
  have hind : indentOf ([] : List Bool) = "" := rfl
  rw [hind] at hw
  simp only [generateFileMap, processDirectory, hw]
  have hempty : ∀ s : String, "" ++ s = s := by
    intro s
    apply String.ext
    simp [String.data_append]
  cases ho : options.outputPath with
  | none => simp [hempty]
  | some outputPath => simp [hempty]

/-! ## Helper facts for the error-handling and output claims -/

theorem processItems_not_dirNotFound (pats : List String) (d : String) :
    ∀ n : Nat, ∀ entries : List (String × FSEntry), entriesSize entries ≤ n →
    ∀ (cur ind : String) (acc : WalkAcc) (p : String),
      (processItems pats d cur ind acc entries).2 ≠ .error (.dirNotFound p) := by
  intro n
  induction n with
  | zero =>
    intro entries hsz cur ind acc p
    cases entries with
    | nil => simp [processItems_nil]
    | cons head rest =>
      rcases head with ⟨item, entry⟩
      exfalso
      simp only [entriesSize] at hsz
      omega
  | succ n ih =>
    intro entries hsz cur ind acc p
    cases entries with
    | nil => simp [processItems_nil]
    | cons head rest =>
      rcases head with ⟨item, entry⟩
      simp only [entriesSize] at hsz
      cases hsi : shouldIgnore (pathJoin cur item) pats with
      | error src =>
        rw [processItems_cons_err pats d cur ind acc item entry rest src hsi]
        simp
      | ok b =>
        cases b with
        | true =>
          rw [processItems_cons_skip pats d cur ind acc item entry rest hsi]
          exact ih rest (by omega) cur ind acc p
        | false =>
          cases entry with
          | file content =>
            rw [processItems_cons_file pats d cur ind acc item content rest hsi]
            exact ih rest (by omega) cur ind _ p
          | dir sub =>
            have hszsub : entriesSize sub ≤ n := by
              simp only [entrySize] at hsz
              omega
            cases hsub : processItems pats d (pathJoin cur item)
                (ind ++ (if rest.isEmpty then "    " else "│   "))
                ⟨acc.fileMap ++ ind ++ (if rest.isEmpty then "└── " else "├── ")
                   ++ item ++ "\n",
                 acc.fileContents, acc.fileTokens⟩ sub with
            | mk ops2 r2 =>
              cases r2 with
              | error e2 =>
                have hsub2 := ih sub hszsub (pathJoin cur item)
                  (ind ++ (if rest.isEmpty then "    " else "│   "))
                  ⟨acc.fileMap ++ ind ++ (if rest.isEmpty then "└── " else "├── ")
                     ++ item ++ "\n",
                   acc.fileContents, acc.fileTokens⟩ p
                rw [hsub] at hsub2
                simp only [processItems, processEntry, hsi, hsub]
                simpa using hsub2
              | ok acc2 =>
                rw [processItems_cons_dir pats d cur ind acc item sub rest ops2 acc2 hsi hsub]
                exact ih rest (by omega) cur ind acc2 p

theorem specOps_no_write (pats : List String) :
    ∀ n : Nat, ∀ entries : List (String × FSEntry), entriesSize entries ≤ n →
    ∀ cur : String, (specOps pats cur entries).filter isWriteOp = [] := by
  intro n
  induction n with
  | zero =>
    intro entries hsz cur
    cases entries with
    | nil =>
      rw [specOps.eq_def]
      simp
    | cons head rest =>
      rcases head with ⟨item, entry⟩
      exfalso
      simp only [entriesSize] at hsz
      omega
  | succ n ih =>
    intro entries hsz cur
    cases entries with
    | nil =>
      rw [specOps.eq_def]
      simp
    | cons head rest =>
      rcases head with ⟨item, entry⟩
      simp only [entriesSize] at hsz
      by_cases hig : ignoresB pats item = true
      · rw [specOps_skip pats cur item entry rest hig]
        exact ih rest (by omega) cur
      · have hig2 : ignoresB pats item = false := by
          simpa using hig
        cases entry with
        | file content =>
          rw [specOps_file pats cur item content rest hig2]
          simp only [List.filter_cons]
          simp only [isWriteOp, if_neg]
          · exact ih rest (by omega) cur
        | dir sub =>
          have hszsub : entriesSize sub ≤ n := by
            simp only [entrySize] at hsz
            omega
          rw [specOps_dir pats cur item sub rest hig2]
          simp only [List.filter_cons, List.filter_append, isWriteOp]
          simp only [Bool.false_eq_true, if_false]
          rw [ih sub hszsub (pathJoin cur item), ih rest (by omega) cur]
          simp

theorem shouldIgnore_join_ok (pats : List String) (cur item : String)
    (hp : patsOK pats = true) (hn : validName item = true) :
    shouldIgnore (pathJoin cur item) pats = .ok (ignoresB pats item) := by
  unfold shouldIgnore
  rw [pathBasename_join cur item hn]
  exact matchesSome_ok item pats hp

theorem processItems_drop_ignored (pats : List String) (item : String)
    (hp : patsOK pats = true) (hn : validName item = true)
    (hig : ignoresB pats item = true) (d cur ind : String)
    (e : FSEntry) (suf : List (String × FSEntry)) (hsuf : suf ≠ []) :
    ∀ (pre : List (String × FSEntry)) (acc : WalkAcc),
      processItems pats d cur ind acc (pre ++ (item, e) :: suf)
        = processItems pats d cur ind acc (pre ++ suf) := by
  have hskip : shouldIgnore (pathJoin cur item) pats = .ok true := by
    rw [shouldIgnore_join_ok pats cur item hp hn, hig]
  intro pre
  induction pre with
  | nil =>
    intro acc
    simpa using processItems_cons_skip pats d cur ind acc item e suf hskip
  | cons head pre ih =>
    intro acc
    rcases head with ⟨pitem, pentry⟩
    rw [List.cons_append, List.cons_append]
    cases hsi : shouldIgnore (pathJoin cur pitem) pats with
    | error src =>
      rw [processItems_cons_err pats d cur ind acc pitem pentry _ src hsi,
          processItems_cons_err pats d cur ind acc pitem pentry _ src hsi]
    | ok b =>
      cases b with
      | true =>
        rw [processItems_cons_skip pats d cur ind acc pitem pentry _ hsi,
            processItems_cons_skip pats d cur ind acc pitem pentry _ hsi]
        exact ih acc
      | false =>
        have h1 : (pre ++ (item, e) :: suf).isEmpty = false := by simp
        have h2 : (pre ++ suf).isEmpty = false := by
          cases suf with
          | nil => exact absurd rfl hsuf
          | cons a l => simp
        simp only [processItems, hsi, h1, h2, Bool.false_eq_true, if_false]
        cases hpe : processEntry pats d (pathJoin cur pitem) (ind ++ "│   ")
            ⟨acc.fileMap ++ ind ++ "├── " ++ pitem ++ "\n",
             acc.fileContents, acc.fileTokens⟩ pentry with
        | mk ops2 r2 =>
          cases r2 with
          | error e2 => rfl
          | ok acc2 => simp only [ih]

theorem processItems_ignored_subtree (pats : List String) (item : String)
    (hp : patsOK pats = true) (hn : validName item = true)
    (hig : ignoresB pats item = true) (d cur ind : String)
    (e e2 : FSEntry) (suf : List (String × FSEntry)) :
    ∀ (pre : List (String × FSEntry)) (acc : WalkAcc),
      processItems pats d cur ind acc (pre ++ (item, e) :: suf)
        = processItems pats d cur ind acc (pre ++ (item, e2) :: suf) := by
  have hskip : shouldIgnore (pathJoin cur item) pats = .ok true := by
    rw [shouldIgnore_join_ok pats cur item hp hn, hig]
  intro pre
  induction pre with
  | nil =>
    intro acc
    rw [List.nil_append, List.nil_append,
        processItems_cons_skip pats d cur ind acc item e suf hskip,
        processItems_cons_skip pats d cur ind acc item e2 suf hskip]
  | cons head pre ih =>
    intro acc
    rcases head with ⟨pitem, pentry⟩
    rw [List.cons_append, List.cons_append]
    cases hsi : shouldIgnore (pathJoin cur pitem) pats with
    | error src =>
      rw [processItems_cons_err pats d cur ind acc pitem pentry _ src hsi,
          processItems_cons_err pats d cur ind acc pitem pentry _ src hsi]
    | ok b =>
      cases b with
      | true =>
        rw [processItems_cons_skip pats d cur ind acc pitem pentry _ hsi,
            processItems_cons_skip pats d cur ind acc pitem pentry _ hsi]
        exact ih acc
      | false =>
        have h1 : (pre ++ (item, e) :: suf).isEmpty = false := by simp
        have h2 : (pre ++ (item, e2) :: suf).isEmpty = false := by simp
        simp only [processItems, hsi, h1, h2, Bool.false_eq_true, if_false]
        cases hpe : processEntry pats d (pathJoin cur pitem) (ind ++ "│   ")
            ⟨acc.fileMap ++ ind ++ "├── " ++ pitem ++ "\n",
             acc.fileContents, acc.fileTokens⟩ pentry with
        | mk ops2 r2 =>
          cases r2 with
          | error err => rfl
          | ok acc2 => simp only [ih]

/-! ## The claims -/

/-- C1, amended: every surviving entry's diagram line uses the connector
chosen by whether the entry is the last LISTED sibling of its directory
(ignored entries included in that count), not the last surviving one, and
the deeper indentation likewise prefixes four spaces under an ancestor
that was the last listed entry and a box-drawing column otherwise: the
diagram returned by generateFileMap is exactly the root name followed by
specLines, whose connector flag is the position-based isLast. -/
theorem c1_connector_indent (entries : List (String × FSEntry)) (dirPath : String)
    (options : FileMapOptions) (hp : patsOK options.ignorePatterns = true)
    (hv : validEntries entries = true) :
    ∃ ops r, generateFileMap (some (.dir entries)) dirPath options = (ops, .ok r)
      ∧ r.fileMap
          = pathBasename dirPath ++ "\n"
              ++ specLines options.ignorePatterns [] entries := by
  rw [generateFileMap_spec entries dirPath options hp hv]
  exact ⟨_, _, rfl, rfl⟩

/-- C1 witness: the characterisation evaluated on a concrete tree with an
ignored trailing entry. -/
theorem c1_connector_indent_witness :
    patsOK ["zz"] = true
    ∧ validEntries [("a.txt", FSEntry.file "x"), ("zz", FSEntry.dir [])] = true
    ∧ ∃ ops r,
        generateFileMap
            (some (.dir [("a.txt", FSEntry.file "x"), ("zz", FSEntry.dir [])]))
            "/r" ⟨none, ["zz"]⟩
          = (ops, .ok r)
        ∧ r.fileMap = pathBasename "/r" ++ "\n"
            ++ specLines ["zz"] [] [("a.txt", FSEntry.file "x"), ("zz", FSEntry.dir [])] :=
  ⟨by decide, by decide,
   c1_connector_indent [("a.txt", FSEntry.file "x"), ("zz", FSEntry.dir [])]
     "/r" ⟨none, ["zz"]⟩ (by decide) (by decide)⟩

/-- C1 counterexample: with the trailing sibling zz ignored, the code
still prints the fork connector for a.txt (a.txt is not the last listed
entry), while the claim's last-surviving-sibling rule demands the corner
connector. -/
theorem c1_counterexample :
    Except.map FileMapResult.fileMap
        ((generateFileMap
            (some (.dir [("a.txt", FSEntry.file "x"), ("zz", FSEntry.dir [])]))
            "/r" ⟨none, ["zz"]⟩).2)
      = .ok "r\n├── a.txt\n"
    ∧ claimSpecLines ["zz"] [] [("a.txt", FSEntry.file "x"), ("zz", FSEntry.dir [])]
        = "└── a.txt\n"
    ∧ ("r\n├── a.txt\n" : String) ≠ "r\n" ++ "└── a.txt\n" := by
  refine ⟨rfl, ?_, by decide⟩
  rw [claimSpecLines.eq_def]
  simp [ignoresB]
  rw [claimSpecLines.eq_def]
  simp [ignoresB]
  rw [claimSpecLines.eq_def]
  simp [indentOf, connectorOf]
  rfl

/-- C4: for a missing root, generateFileMap fails with the dirNotFound
error, whose message is exactly the advertised string, before any
filesystem operation is performed; when the root exists (as a directory
or as a file), the dirNotFound error is never produced. -/
theorem c4_directory_not_found (dirPath : String) (options : FileMapOptions) :
    generateFileMap none dirPath options = ([], .error (.dirNotFound dirPath))
    ∧ (FMError.dirNotFound dirPath).message = "Directory not found: " ++ dirPath
    ∧ ∀ (root : FSEntry) (p : String),
        (generateFileMap (some root) dirPath options).2
          ≠ .error (.dirNotFound p) := by
  refine ⟨rfl, rfl, ?_⟩
  intro root p
  cases root with
  | file content => simp [generateFileMap]
  | dir entries =>
    have h := processItems_not_dirNotFound options.ignorePatterns dirPath
      (entriesSize entries) entries le_rfl dirPath ""
      ⟨pathBasename dirPath ++ "\n", "", []⟩ p
    simp only [generateFileMap, processDirectory]
    cases hpi : processItems options.ignorePatterns dirPath dirPath ""
        ⟨pathBasename dirPath ++ "\n", "", []⟩ entries with
    | mk ops r =>
      rw [hpi] at h
      cases r with
      | error e =>
        simp only [hpi]
        simpa using h
      | ok acc =>
        simp only [hpi]
        simp

/-- C6: on a successful run the per-file token map is exactly one entry
per surviving file reachable through surviving directories, keyed by the
root-relative path (the diagram's forward-slash convention), valued by
the token estimate of the file's content, in traversal order. -/
theorem c6_fileTokens_invariant (entries : List (String × FSEntry)) (dirPath : String)
    (options : FileMapOptions) (hp : patsOK options.ignorePatterns = true)
    (hv : validEntries entries = true) :
    ∃ ops r, generateFileMap (some (.dir entries)) dirPath options = (ops, .ok r)
      ∧ r.fileTokens = specFileTokens options.ignorePatterns "" entries := by
  rw [generateFileMap_spec entries dirPath options hp hv]
  exact ⟨_, _, rfl, rfl⟩

/-- C6 witness: the invariant evaluated on a concrete tree with an
ignored subdirectory. -/
theorem c6_fileTokens_invariant_witness :
    patsOK ["s*"] = true
    ∧ validEntries [("a.txt", FSEntry.file "x"),
        ("sub", FSEntry.dir [("c.txt", FSEntry.file "y")])] = true
    ∧ ∃ ops r,
        generateFileMap (some (.dir [("a.txt", FSEntry.file "x"),
            ("sub", FSEntry.dir [("c.txt", FSEntry.file "y")])])) "/r" ⟨none, ["s*"]⟩
          = (ops, .ok r)
        ∧ r.fileTokens = specFileTokens ["s*"] "" [("a.txt", FSEntry.file "x"),
            ("sub", FSEntry.dir [("c.txt", FSEntry.file "y")])] :=
  ⟨by decide, by decide,
   c6_fileTokens_invariant
     [("a.txt", FSEntry.file "x"), ("sub", FSEntry.dir [("c.txt", FSEntry.file "y")])]
     "/r" ⟨none, ["s*"]⟩ (by decide) (by decide)⟩

/-- C7: an entry whose basename matches an ignore pattern is skipped
entirely: the run of generateFileMap (operations performed and result
returned) does not depend on the ignored entry's subtree at all, and,
whenever the ignored entry is not the final listed sibling, the run is
identical to the run on the tree with the entry removed, so neither the
entry nor its subtree is listed, read, or rendered anywhere. -/
theorem c7_ignored_skipped (pats : List String) (item : String)
    (hp : patsOK pats = true) (hn : validName item = true)
    (hig : ignoresB pats item = true)
    (dirPath : String) (out : Option String)
    (pre suf : List (String × FSEntry)) (e : FSEntry) :
    (∀ e2 : FSEntry,
       generateFileMap (some (.dir (pre ++ (item, e) :: suf))) dirPath ⟨out, pats⟩
         = generateFileMap (some (.dir (pre ++ (item, e2) :: suf))) dirPath ⟨out, pats⟩)
    ∧ (suf ≠ [] →
       generateFileMap (some (.dir (pre ++ (item, e) :: suf))) dirPath ⟨out, pats⟩
         = generateFileMap (some (.dir (pre ++ suf))) dirPath ⟨out, pats⟩) := by
  constructor
  · intro e2
    have h := processItems_ignored_subtree pats item hp hn hig dirPath dirPath "" e e2 suf
    simp only [generateFileMap, processDirectory, h]
  · intro hsuf
    have h := processItems_drop_ignored pats item hp hn hig dirPath dirPath "" e suf hsuf
    simp only [generateFileMap, processDirectory, h]

/-- C7 witness: the skip property evaluated on a concrete tree whose
ignored middle entry holds a subtree. -/
theorem c7_ignored_skipped_witness :
    patsOK ["zz"] = true ∧ validName "zz" = true ∧ ignoresB ["zz"] "zz" = true
    ∧ ((∀ e2 : FSEntry,
          generateFileMap (some (.dir ([("a.txt", FSEntry.file "x")]
              ++ ("zz", FSEntry.dir [("secret", FSEntry.file "s")])
                :: [("b.md", FSEntry.file "y")]))) "/r" ⟨none, ["zz"]⟩
            = generateFileMap (some (.dir ([("a.txt", FSEntry.file "x")]
                ++ ("zz", e2) :: [("b.md", FSEntry.file "y")]))) "/r" ⟨none, ["zz"]⟩)
        ∧ ([("b.md", FSEntry.file "y")] ≠ ([] : List (String × FSEntry)) →
          generateFileMap (some (.dir ([("a.txt", FSEntry.file "x")]
              ++ ("zz", FSEntry.dir [("secret", FSEntry.file "s")])
                :: [("b.md", FSEntry.file "y")]))) "/r" ⟨none, ["zz"]⟩
            = generateFileMap (some (.dir ([("a.txt", FSEntry.file "x")]
                ++ [("b.md", FSEntry.file "y")]))) "/r" ⟨none, ["zz"]⟩)) :=
  ⟨by decide, by decide, by decide,
   c7_ignored_skipped ["zz"] "zz" (by decide) (by decide) (by decide) "/r" none
     [("a.txt", FSEntry.file "x")] [("b.md", FSEntry.file "y")]
     (FSEntry.dir [("secret", FSEntry.file "s")])⟩

/-- C8: with an output path supplied, a successful run performs exactly
one write, to that path, whose entire content is the Markdown document
built from the two headings, the fenced raw diagram and the raw contents
block, and the contents block is the per-file concatenation of a File:
line with the relative path followed by the file's literal text between
fences. -/
theorem c8_persisted_markdown (entries : List (String × FSEntry))
    (dirPath outputPath : String) (pats : List String)
    (hp : patsOK pats = true) (hv : validEntries entries = true) :
    ∃ ops r,
      generateFileMap (some (.dir entries)) dirPath ⟨some outputPath, pats⟩
        = (ops, .ok r)
      ∧ ops.filter isWriteOp
          = [FSOp.writeFile outputPath
               ("# Directory Structure for " ++ pathBasename dirPath ++ "\n\n```\n"
                 ++ r.fileMap ++ "```\n\n# File Contents\n\n" ++ r.fileContents)]
      ∧ r.fileContents = specContents pats "" entries := by
  rw [generateFileMap_spec entries dirPath ⟨some outputPath, pats⟩ hp hv]
  refine ⟨_, _, rfl, ?_, rfl⟩
  have hno := specOps_no_write pats (entriesSize entries) entries le_rfl dirPath
  simp [List.filter_cons, List.filter_append, isWriteOp, hno]

/-- C8 witness: the write characterisation evaluated on a one-file tree. -/
theorem c8_persisted_markdown_witness :
    patsOK ([] : List String) = true
    ∧ validEntries [("a.txt", FSEntry.file "hi")] = true
    ∧ ∃ ops r,
        generateFileMap (some (.dir [("a.txt", FSEntry.file "hi")])) "/r"
            ⟨some "/out.md", []⟩
          = (ops, .ok r)
        ∧ ops.filter isWriteOp
            = [FSOp.writeFile "/out.md"
                 ("# Directory Structure for " ++ pathBasename "/r" ++ "\n\n```\n"
                   ++ r.fileMap ++ "```\n\n# File Contents\n\n" ++ r.fileContents)]
        ∧ r.fileContents = specContents [] "" [("a.txt", FSEntry.file "hi")] :=
  ⟨by decide, by decide,
   c8_persisted_markdown [("a.txt", FSEntry.file "hi")] "/r" "/out.md" []
     (by decide) (by decide)⟩

/-- C9: every successful call returns a tokenCount whose fileMapTokens
and fileContentsTokens are the token estimates of the returned diagram
and contents strings, and whose total is their sum. -/
theorem c9_token_count_algebra (root : Option FSEntry) (dirPath : String)
    (options : FileMapOptions) (ops : List FSOp) (r : FileMapResult)
    (h : generateFileMap root dirPath options = (ops, .ok r)) :
    r.tokenCount.fileMapTokens = estimateTokenCount r.fileMap
    ∧ r.tokenCount.fileContentsTokens = estimateTokenCount r.fileContents
    ∧ r.tokenCount.total
        = r.tokenCount.fileMapTokens + r.tokenCount.fileContentsTokens := by
  cases root with
  | none => simp [generateFileMap] at h
  | some fe =>
    cases fe with
    | file c => simp [generateFileMap] at h
    | dir entries =>
      simp only [generateFileMap, processDirectory] at h
      cases hpi : processItems options.ignorePatterns dirPath dirPath ""
          ⟨pathBasename dirPath ++ "\n", "", []⟩ entries with
      | mk ops2 res =>
        rw [hpi] at h
        cases res with
        | error e => simp at h
        | ok acc =>
          simp at h
          obtain ⟨h1, h2⟩ := h
          subst h2
          simp

/-- C9 witness: the algebra evaluated on the empty directory. -/
theorem c9_token_count_algebra_witness :
    generateFileMap (some (FSEntry.dir [])) "/r" ⟨none, []⟩
      = ([FSOp.readdir "/r"], .ok ⟨"r\n", "", [], ⟨1, 1, 0⟩⟩)
    ∧ ((⟨"r\n", "", [], ⟨1, 1, 0⟩⟩ : FileMapResult).tokenCount.fileMapTokens
          = estimateTokenCount (⟨"r\n", "", [], ⟨1, 1, 0⟩⟩ : FileMapResult).fileMap
        ∧ (⟨"r\n", "", [], ⟨1, 1, 0⟩⟩ : FileMapResult).tokenCount.fileContentsTokens
            = estimateTokenCount (⟨"r\n", "", [], ⟨1, 1, 0⟩⟩ : FileMapResult).fileContents
        ∧ (⟨"r\n", "", [], ⟨1, 1, 0⟩⟩ : FileMapResult).tokenCount.total
            = (⟨"r\n", "", [], ⟨1, 1, 0⟩⟩ : FileMapResult).tokenCount.fileMapTokens
              + (⟨"r\n", "", [], ⟨1, 1, 0⟩⟩ : FileMapResult).tokenCount.fileContentsTokens) :=
  ⟨rfl, c9_token_count_algebra (some (FSEntry.dir [])) "/r" ⟨none, []⟩
      [FSOp.readdir "/r"] ⟨"r\n", "", [], ⟨1, 1, 0⟩⟩ rfl⟩

/-- C10: a root that exists as a file passes the existence check and
fails in the directory listing with a generic ENOTDIR I/O error, not the
dirNotFound error; its message also differs from every possible
Directory-not-found message. -/
theorem c10_root_not_directory (dirPath content : String) (options : FileMapOptions) :
    generateFileMap (some (.file content)) dirPath options
      = ([FSOp.readdir dirPath],
         .error (.ioError ("ENOTDIR: not a directory, scandir " ++ dirPath)))
    ∧ (∀ p : String,
        FMError.ioError ("ENOTDIR: not a directory, scandir " ++ dirPath)
          ≠ FMError.dirNotFound p)
    ∧ (∀ p : String,
        (FMError.ioError ("ENOTDIR: not a directory, scandir " ++ dirPath)).message
          ≠ (FMError.dirNotFound p).message) := by
  refine ⟨rfl, ?_, ?_⟩
  · intro p h
    simp at h
  · intro p h
    simp only [FMError.message] at h
    have h2 := congrArg (fun s : String => s.data.head?) h
    simp only [String.data_append] at h2
    simp only [List.cons_append, List.head?_cons, Option.some.injEq] at h2
    exact absurd h2 (by decide)
